import Mathlib

/-!
Shallow embedding of the hexagonal board/match engine of `src/game.ts`
(the core of the `atomicon` puzzle game), together with proofs of the
specified properties: board geometry, grid state queries, BFS
pathfinding, flood-fill match detection with wildcard tokens, scoring,
spawn control and game-over detection.

Conventions of the embedding:
* a board position is a pair of integers `(row, col)`;
* a grid is a total function from positions to integer cell values,
  with the same sentinel encoding as the source
  (`EMPTY_COLOR = -1`, `BLOCKED_COLOR = -2`, colors `0..6`, joker `7`);
* the mutable TypeScript grid becomes explicit functional update
  (`updateCell`), and functions that mutate the grid return it;
* `Math.random()`-driven choices become an explicit oracle argument
  (`rnd : Nat → Nat`), reduced modulo the number of available choices,
  so every theorem quantifies over all possible random draws.
-/

namespace Atomicon

abbrev Pos := Int × Int

abbrev Grid := Pos → Int

def GRID_SIZE : Int := 9

def HEX_RADIUS : Int := 4

def VALID_CELL_COUNT : Nat := 61

def NUM_COLORS : Int := 7

def JOKER_COLOR : Int := 7

def EMPTY_COLOR : Int := -1

def BLOCKED_COLOR : Int := -2

def MIN_MATCH : Nat := 5

/-- The six axial hex directions, as `(dq, dr)` pairs, in the order the
source lists them in `HEX_DIRS`. -/
def HEX_DIRS : List (Int × Int) := [(1, 0), (1, -1), (0, -1), (-1, 0), (-1, 1), (0, 1)]

/-- `isValidCell` from the source: inside the 9×9 index range and at
hex distance at most `HEX_RADIUS` from the board center. -/
def isValidCell (p : Pos) : Bool :=
  if p.1 < 0 ∨ GRID_SIZE ≤ p.1 ∨ p.2 < 0 ∨ GRID_SIZE ≤ p.2 then false
  else
    let q := p.2 - HEX_RADIUS
    let r := p.1 - HEX_RADIUS
    let s := -q - r
    decide ((max (max q.natAbs r.natAbs) s.natAbs : Int) ≤ HEX_RADIUS)

/-- `getAllValidPositions` from the source: row-major scan of the 9×9
index square, keeping the valid cells. -/
def getAllValidPositions : List Pos :=
  (List.range 9).flatMap fun row =>
    (List.range 9).filterMap fun col =>
      let p : Pos := ((row : Int), (col : Int))
      if isValidCell p then some p else none

/-- `createEmptyGrid` from the source: every valid cell `EMPTY`, every
other coordinate `BLOCKED`. -/
def createEmptyGrid : Grid := fun p =>
  if isValidCell p then EMPTY_COLOR else BLOCKED_COLOR

/-- Functional update of one cell, the embedding of
`grid[pos.row][pos.col].color = c`. -/
def updateCell (g : Grid) (p : Pos) (c : Int) : Grid := fun q =>
  if q = p then c else g q

/-- `isEmpty` from the source. -/
def isEmpty (g : Grid) (p : Pos) : Bool :=
  isValidCell p && (g p == EMPTY_COLOR)

/-- `getEmptyCells` from the source. -/
def getEmptyCells (g : Grid) : List Pos :=
  getAllValidPositions.filter fun p => g p == EMPTY_COLOR

/-- `countOccupied` from the source: valid cells with color `≥ 0`. -/
def countOccupied (g : Grid) : Nat :=
  (getAllValidPositions.filter fun p => decide (0 ≤ g p)).length

/-- `neighbors` from the source: step by each hex direction
(`row + dr`, `col + dq`) and keep the valid cells. -/
def neighbors (p : Pos) : List Pos :=
  (HEX_DIRS.map fun d => (p.1 + d.2, p.2 + d.1)).filter isValidCell

/-- `getSpawnCount` from the source. -/
def getSpawnCount (moveCount : Int) (occupiedRatio : ℚ) : Nat :=
  if moveCount < 10 ∧ occupiedRatio < 0.58 then 3
  else if moveCount < 25 ∧ occupiedRatio < 0.82 then 4
  else 5

/-- `removeMatches` from the source: set every position of the removal
set to `EMPTY`. The TypeScript `Set<string>` of `"row,col"` keys is
modelled as the list of the decoded positions, in iteration order. -/
def removeMatches (g : Grid) (toRemove : List Pos) : Grid :=
  toRemove.foldl (fun acc p => updateCell acc p EMPTY_COLOR) g

/-- `isBoardFull` from the source. -/
def isBoardFull (g : Grid) : Bool :=
  (getEmptyCells g).length == 0

/-- `hasAnyMove` from the source: some valid cell with color `≥ 0` has
a neighbor holding `EMPTY`. -/
def hasAnyMove (g : Grid) : Bool :=
  getAllValidPositions.any fun p =>
    decide (0 ≤ g p) && (neighbors p).any fun n => g n == EMPTY_COLOR

/-! ### Basic geometry lemmas -/

theorem isValidCell_bounds {p : Pos} (hp : isValidCell p = true) :
    0 ≤ p.1 ∧ p.1 < 9 ∧ 0 ≤ p.2 ∧ p.2 < 9 := by
  by_contra hcon
  simp only [isValidCell, GRID_SIZE] at hp
  rcases Decidable.not_and_iff_or_not.mp hcon with h | hcon2
  · rw [if_pos (Or.inl (lt_of_not_le h))] at hp; exact Bool.false_ne_true hp
  rcases Decidable.not_and_iff_or_not.mp hcon2 with h | hcon3
  · rw [if_pos (Or.inr (Or.inl (le_of_not_lt h)))] at hp; exact Bool.false_ne_true hp
  rcases Decidable.not_and_iff_or_not.mp hcon3 with h | h
  · rw [if_pos (Or.inr (Or.inr (Or.inl (lt_of_not_le h))))] at hp; exact Bool.false_ne_true hp
  · rw [if_pos (Or.inr (Or.inr (Or.inr (le_of_not_lt h))))] at hp; exact Bool.false_ne_true hp

theorem mem_getAllValidPositions {p : Pos} :
    p ∈ getAllValidPositions ↔ isValidCell p = true := by
  constructor
  · intro hp
    have hall : getAllValidPositions.all isValidCell = true := by decide
    exact List.all_eq_true.mp hall p hp
  · intro hp
    obtain ⟨h1, h2, h3, h4⟩ := isValidCell_bounds hp
    obtain ⟨a, b⟩ := p
    simp only at h1 h2 h3 h4
    interval_cases a <;> interval_cases b <;> revert hp <;> decide

theorem getAllValidPositions_nodup : getAllValidPositions.Nodup := by
  decide

theorem mem_neighbors_valid {p n : Pos} (h : n ∈ neighbors p) : isValidCell n = true := by
  simp only [neighbors, List.mem_filter] at h
  exact h.2

theorem mem_neighbors_iff {p n : Pos} :
    n ∈ neighbors p ↔ (∃ d ∈ HEX_DIRS, n = (p.1 + d.2, p.2 + d.1)) ∧ isValidCell n = true := by
  simp only [neighbors, List.mem_filter, List.mem_map]
  constructor
  · rintro ⟨⟨d, hd, rfl⟩, hv⟩
    exact ⟨⟨d, hd, rfl⟩, hv⟩
  · rintro ⟨⟨d, hd, rfl⟩, hv⟩
    exact ⟨⟨d, hd, rfl⟩, hv⟩

/-- Hex adjacency is symmetric: the direction list is closed under
negation. -/
theorem mem_neighbors_symm {p n : Pos} (hp : isValidCell p = true)
    (h : n ∈ neighbors p) : p ∈ neighbors n := by
  rw [mem_neighbors_iff] at h ⊢
  obtain ⟨⟨d, hd, rfl⟩, _⟩ := h
  refine ⟨⟨(-d.1, -d.2), ?_, ?_⟩, hp⟩
  · fin_cases hd <;> decide
  · simp

/-! ### Grid update lemmas -/

theorem updateCell_same (g : Grid) (p : Pos) (c : Int) : updateCell g p c p = c := by
  simp [updateCell]

theorem updateCell_other (g : Grid) (p q : Pos) (c : Int) (h : q ≠ p) :
    updateCell g p c q = g q := by
  simp [updateCell, h]

/-! ### Removal (`removeMatches`) -/

theorem removeMatches_not_mem (g : Grid) (S : List Pos) (p : Pos) (hp : p ∉ S) :
    removeMatches g S p = g p := by
  induction S generalizing g with
  | nil => rfl
  | cons q rest ih =>
    have hpq : p ≠ q := fun h => hp (h ▸ List.mem_cons_self q rest)
    have hprest : p ∉ rest := fun h => hp (List.mem_cons_of_mem q h)
    calc removeMatches g (q :: rest) p
        = removeMatches (updateCell g q EMPTY_COLOR) rest p := rfl
      _ = updateCell g q EMPTY_COLOR p := ih _ hprest
      _ = g p := updateCell_other _ _ _ _ hpq

theorem removeMatches_mem (g : Grid) (S : List Pos) (p : Pos) (hp : p ∈ S) :
    removeMatches g S p = EMPTY_COLOR := by
  induction S generalizing g with
  | nil => exact absurd hp (List.not_mem_nil p)
  | cons q rest ih =>
    by_cases hprest : p ∈ rest
    · exact ih _ hprest
    · have hpq : p = q := by
        rcases List.mem_cons.mp hp with h | h
        · exact h
        · exact absurd h hprest
      calc removeMatches g (q :: rest) p
          = removeMatches (updateCell g q EMPTY_COLOR) rest p := rfl
        _ = updateCell g q EMPTY_COLOR p := removeMatches_not_mem _ _ _ hprest
        _ = EMPTY_COLOR := by rw [hpq]; exact updateCell_same _ _ _

/-- C7: after `removeMatches(grid, S)` (with `S` a set of keys of valid
coordinates), every position in `S` holds `EMPTY` and every position
outside `S` holds exactly the value it held before the call. -/
theorem removeMatches_spec (g : Grid) (S : List Pos)
    (_hS : ∀ p ∈ S, isValidCell p = true) :
    (∀ p ∈ S, removeMatches g S p = EMPTY_COLOR) ∧
      (∀ p, p ∉ S → removeMatches g S p = g p) :=
  ⟨fun p hp => removeMatches_mem g S p hp, fun p hp => removeMatches_not_mem g S p hp⟩

/-- Witness for C7 at a concrete grid with one token at `(4,4)`. -/
theorem removeMatches_spec_witness :
    removeMatches (updateCell createEmptyGrid (4, 4) 3) [(4, 4)] (4, 4) = EMPTY_COLOR ∧
      removeMatches (updateCell createEmptyGrid (4, 4) 3) [(4, 4)] (3, 4) =
        updateCell createEmptyGrid (4, 4) 3 (3, 4) :=
  ⟨(removeMatches_spec (updateCell createEmptyGrid (4, 4) 3) [(4, 4)] (by decide)).1
      (4, 4) (by decide),
    (removeMatches_spec (updateCell createEmptyGrid (4, 4) 3) [(4, 4)] (by decide)).2
      (3, 4) (by decide)⟩

/-! ### Spawn count (`getSpawnCount`) -/

theorem getSpawnCount_le_five (mc : Int) (r : ℚ) : getSpawnCount mc r ≤ 5 := by
  unfold getSpawnCount
  split_ifs <;> norm_num

theorem getSpawnCount_le_four_of (mc : Int) (r : ℚ) (h : mc < 25 ∧ r < 0.82) :
    getSpawnCount mc r ≤ 4 := by
  unfold getSpawnCount
  split_ifs with h1
  · norm_num
  · norm_num

theorem getSpawnCount_mono_mc (mc₁ mc₂ : Int) (r : ℚ) (h : mc₁ ≤ mc₂) :
    getSpawnCount mc₁ r ≤ getSpawnCount mc₂ r := by
  by_cases hA : mc₂ < 10 ∧ r < 0.58
  · have hA' : mc₁ < 10 ∧ r < 0.58 := ⟨by omega, hA.2⟩
    calc getSpawnCount mc₁ r = 3 := by unfold getSpawnCount; rw [if_pos hA']
      _ ≤ getSpawnCount mc₂ r := by unfold getSpawnCount; rw [if_pos hA]
  · by_cases hB : mc₂ < 25 ∧ r < 0.82
    · have hB' : mc₁ < 25 ∧ r < 0.82 := ⟨by omega, hB.2⟩
      calc getSpawnCount mc₁ r ≤ 4 := getSpawnCount_le_four_of mc₁ r hB'
        _ = getSpawnCount mc₂ r := by unfold getSpawnCount; rw [if_neg hA, if_pos hB]
    · calc getSpawnCount mc₁ r ≤ 5 := getSpawnCount_le_five mc₁ r
        _ = getSpawnCount mc₂ r := by unfold getSpawnCount; rw [if_neg hA, if_neg hB]

theorem getSpawnCount_mono_r (mc : Int) (r₁ r₂ : ℚ) (h : r₁ ≤ r₂) :
    getSpawnCount mc r₁ ≤ getSpawnCount mc r₂ := by
  by_cases hA : mc < 10 ∧ r₂ < 0.58
  · have hA' : mc < 10 ∧ r₁ < 0.58 := ⟨hA.1, lt_of_le_of_lt h hA.2⟩
    calc getSpawnCount mc r₁ = 3 := by unfold getSpawnCount; rw [if_pos hA']
      _ ≤ getSpawnCount mc r₂ := by unfold getSpawnCount; rw [if_pos hA]
  · by_cases hB : mc < 25 ∧ r₂ < 0.82
    · have hB' : mc < 25 ∧ r₁ < 0.82 := ⟨hB.1, lt_of_le_of_lt h hB.2⟩
      calc getSpawnCount mc r₁ ≤ 4 := getSpawnCount_le_four_of mc r₁ hB'
        _ = getSpawnCount mc r₂ := by unfold getSpawnCount; rw [if_neg hA, if_pos hB]
    · calc getSpawnCount mc r₁ ≤ 5 := getSpawnCount_le_five mc r₁
        _ = getSpawnCount mc r₂ := by unfold getSpawnCount; rw [if_neg hA, if_neg hB]

/-- C8: `getSpawnCount` implements the documented 3/4/5 breakpoints and
is monotone non-decreasing in the move count and in the occupancy
ratio separately. -/
theorem getSpawnCount_spec :
    (∀ (mc : Int) (r : ℚ), getSpawnCount mc r =
        if mc < 10 ∧ r < 0.58 then 3 else if mc < 25 ∧ r < 0.82 then 4 else 5) ∧
      (∀ (mc₁ mc₂ : Int) (r : ℚ), mc₁ ≤ mc₂ →
        getSpawnCount mc₁ r ≤ getSpawnCount mc₂ r) ∧
      (∀ (mc : Int) (r₁ r₂ : ℚ), r₁ ≤ r₂ →
        getSpawnCount mc r₁ ≤ getSpawnCount mc r₂) :=
  ⟨fun _ _ => rfl, getSpawnCount_mono_mc, getSpawnCount_mono_r⟩

/-- Witness for C8's monotonicity parts at concrete arguments. -/
theorem getSpawnCount_spec_witness :
    getSpawnCount 5 (1 / 2) ≤ getSpawnCount 30 (1 / 2) ∧
      getSpawnCount 12 (1 / 2) ≤ getSpawnCount 12 (9 / 10) :=
  ⟨getSpawnCount_spec.2.1 5 30 (1 / 2) (by norm_num),
    getSpawnCount_spec.2.2 12 (1 / 2) (9 / 10) (by norm_num)⟩

/-! ### Spawning (`spawnCells`)

The `Math.random()` draws of the source are modelled by an oracle
`rnd : Nat → Nat` giving the draw of each loop iteration; the index
into the remaining empty-cell list is the draw reduced modulo the list
length, exactly the support of `Math.floor(Math.random() * empty.length)`.
`empty.splice(idx, 1)` is `List.eraseIdx`. -/

def spawnCellsGo (g : Grid) (colors : List Int) (empty : List Pos)
    (rnd : Nat → Nat) (i : Nat) : Grid × List Pos :=
  match colors with
  | [] => (g, [])
  | c :: rest =>
    match empty with
    | [] => (g, [])
    | e :: es =>
      let idx := rnd i % (e :: es).length
      have hidx : idx < (e :: es).length := Nat.mod_lt _ (Nat.succ_pos es.length)
      let pos := (e :: es).get ⟨idx, hidx⟩
      let res := spawnCellsGo (updateCell g pos c) rest ((e :: es).eraseIdx idx) rnd (i + 1)
      (res.1, pos :: res.2)

/-- `spawnCells` from the source; returns the final grid and the list
of placed positions in placement order. -/
def spawnCells (g : Grid) (colors : List Int) (rnd : Nat → Nat) : Grid × List Pos :=
  spawnCellsGo g colors (getEmptyCells g) rnd 0

theorem get_not_mem_eraseIdx (l : List Pos) (i : Nat) (h : i < l.length) (hn : l.Nodup) :
    l.get ⟨i, h⟩ ∉ l.eraseIdx i := by
  rw [List.eraseIdx_eq_take_drop_succ]
  have hdec : l = l.take i ++ l.get ⟨i, h⟩ :: l.drop (i + 1) := by
    conv_lhs => rw [← List.take_append_drop i l]
    congr 1
    exact (List.getElem_cons_drop l i h).symm
  rw [hdec] at hn
  have hdisj := (List.nodup_append.mp hn).2.2
  have hnd := (List.nodup_append.mp hn).2.1
  intro hmem
  rcases List.mem_append.mp hmem with hmem | hmem
  · exact hdisj hmem (List.mem_cons_self _ _)
  · exact (List.nodup_cons.mp hnd).1 hmem

theorem spawnCellsGo_length (g : Grid) (colors : List Int) (empty : List Pos)
    (rnd : Nat → Nat) (i : Nat) :
    (spawnCellsGo g colors empty rnd i).2.length = min colors.length empty.length := by
  induction colors generalizing g empty i with
  | nil => simp [spawnCellsGo]
  | cons c rest ih =>
    match empty with
    | [] => simp [spawnCellsGo]
    | e :: es =>
      simp only [spawnCellsGo, List.length_cons]
      rw [ih]
      rw [List.length_eraseIdx]
      simp only [List.length_cons]
      have hlt : rnd i % (es.length + 1) < es.length + 1 := Nat.mod_lt _ (Nat.succ_pos es.length)
      rw [if_pos hlt]
      omega

theorem spawnCellsGo_subset (g : Grid) (colors : List Int) (empty : List Pos)
    (rnd : Nat → Nat) (i : Nat) :
    ∀ p ∈ (spawnCellsGo g colors empty rnd i).2, p ∈ empty := by
  induction colors generalizing g empty i with
  | nil => simp [spawnCellsGo]
  | cons c rest ih =>
    match empty with
    | [] => simp [spawnCellsGo]
    | e :: es =>
      intro p hp
      simp only [spawnCellsGo, List.mem_cons] at hp
      rcases hp with hp | hp
      · rw [hp]; exact List.get_mem _ _ _
      · exact (List.eraseIdx_sublist (e :: es) _).mem (ih _ _ _ p hp)

theorem spawnCellsGo_nodup (g : Grid) (colors : List Int) (empty : List Pos)
    (rnd : Nat → Nat) (i : Nat) (hn : empty.Nodup) :
    (spawnCellsGo g colors empty rnd i).2.Nodup := by
  induction colors generalizing g empty i with
  | nil => simp [spawnCellsGo]
  | cons c rest ih =>
    match empty with
    | [] => simp [spawnCellsGo]
    | e :: es =>
      simp only [spawnCellsGo, List.nodup_cons]
      constructor
      · intro hmem
        exact get_not_mem_eraseIdx (e :: es) _ _ hn
          (spawnCellsGo_subset _ _ _ _ _ _ hmem)
      · exact ih _ _ _ (((e :: es).eraseIdx_sublist _).nodup hn)

theorem length_filter_update {l : List Pos} (hl : l.Nodup) {p : Pos} (hp : p ∈ l)
    (f f' : Pos → Bool) (hsame : ∀ q, q ≠ p → f' q = f q)
    (hfp : f p = false) (hfp' : f' p = true) :
    (l.filter f').length = (l.filter f).length + 1 := by
  induction l with
  | nil => cases hp
  | cons a t ih =>
    rcases List.mem_cons.mp hp with rfl | hpt
    · have hnt : p ∉ t := (List.nodup_cons.mp hl).1
      rw [List.filter_cons, List.filter_cons, hfp, hfp']
      have hcongr : t.filter f' = t.filter f :=
        List.filter_congr fun x hx => hsame x (fun hxa => hnt (hxa ▸ hx))
      simp [hcongr]
    · have hap : a ≠ p := by
        intro h
        exact (List.nodup_cons.mp hl).1 (h ▸ hpt)
      rw [List.filter_cons, List.filter_cons, hsame a hap]
      have := ih (List.nodup_cons.mp hl).2 hpt
      by_cases hfa : f a = true
      · simp [hfa, this]
      · simp only [Bool.not_eq_true] at hfa
        simp [hfa, this]

theorem countOccupied_updateCell (g : Grid) (p : Pos) (c : Int)
    (hv : isValidCell p = true) (he : g p = EMPTY_COLOR) (hc : 0 ≤ c) :
    countOccupied (updateCell g p c) = countOccupied g + 1 := by
  unfold countOccupied
  refine length_filter_update getAllValidPositions_nodup (mem_getAllValidPositions.mpr hv)
    _ _ (fun q hq => ?_) ?_ ?_
  · rw [updateCell_other g p q c hq]
  · rw [he]
    decide
  · rw [updateCell_same]
    exact decide_eq_true hc

theorem spawnCellsGo_countOccupied (g : Grid) (colors : List Int) (empty : List Pos)
    (rnd : Nat → Nat) (i : Nat) (hn : empty.Nodup)
    (hempty : ∀ p ∈ empty, isValidCell p = true ∧ g p = EMPTY_COLOR)
    (hc : ∀ c ∈ colors, 0 ≤ c) :
    countOccupied (spawnCellsGo g colors empty rnd i).1 =
      countOccupied g + (spawnCellsGo g colors empty rnd i).2.length := by
  induction colors generalizing g empty i with
  | nil => simp [spawnCellsGo]
  | cons c rest ih =>
    match empty with
    | [] => simp [spawnCellsGo]
    | e :: es =>
      have hidx : rnd i % (e :: es).length < (e :: es).length :=
        Nat.mod_lt _ (Nat.succ_pos es.length)
      have hposmem : (e :: es).get ⟨rnd i % (e :: es).length, hidx⟩ ∈ e :: es :=
        List.get_mem _ _ _
      have hpos := hempty _ hposmem
      have hnotmem : (e :: es).get ⟨rnd i % (e :: es).length, hidx⟩ ∉
          (e :: es).eraseIdx (rnd i % (e :: es).length) :=
        get_not_mem_eraseIdx _ _ hidx hn
      have hstep := countOccupied_updateCell g _ c hpos.1 hpos.2
        (hc c (List.mem_cons_self _ _))
      have hrec := ih (updateCell g ((e :: es).get ⟨rnd i % (e :: es).length, hidx⟩) c)
        ((e :: es).eraseIdx (rnd i % (e :: es).length)) (i + 1)
        (((e :: es).eraseIdx_sublist _).nodup hn)
        (fun p hp => by
          have hmem : p ∈ e :: es := ((e :: es).eraseIdx_sublist _).mem hp
          refine ⟨(hempty p hmem).1, ?_⟩
          rw [updateCell_other]
          · exact (hempty p hmem).2
          · intro hpq
            exact hnotmem (hpq ▸ hp))
        (fun d hd => hc d (List.mem_cons_of_mem _ hd))
      simp only [spawnCellsGo]
      rw [hrec, hstep]
      simp only [List.length_cons]
      omega

theorem getEmptyCells_nodup (g : Grid) : (getEmptyCells g).Nodup :=
  getAllValidPositions_nodup.filter _

theorem mem_getEmptyCells {g : Grid} {p : Pos} :
    p ∈ getEmptyCells g ↔ isValidCell p = true ∧ g p = EMPTY_COLOR := by
  simp only [getEmptyCells, List.mem_filter, mem_getAllValidPositions, beq_iff_eq]

/-- C5: for every grid, color list (of real token colors) and sequence
of random draws, `spawnCells` places at most
`min(colors.length, |empty cells|)` tokens, the returned positions are
pairwise distinct and were empty before the call, and the occupied
count grows by exactly the number of returned positions. -/
theorem spawnCells_spec (g : Grid) (colors : List Int) (rnd : Nat → Nat)
    (hc : ∀ c ∈ colors, 0 ≤ c) :
    (spawnCells g colors rnd).2.length ≤ min colors.length (getEmptyCells g).length ∧
      (∀ p ∈ (spawnCells g colors rnd).2, isEmpty g p = true) ∧
      (spawnCells g colors rnd).2.Nodup ∧
      countOccupied (spawnCells g colors rnd).1 =
        countOccupied g + (spawnCells g colors rnd).2.length := by
  refine ⟨?_, ?_, ?_, ?_⟩
  · rw [spawnCells, spawnCellsGo_length]
  · intro p hp
    have hmem := spawnCellsGo_subset g colors (getEmptyCells g) rnd 0 p hp
    have h2 := mem_getEmptyCells.mp hmem
    simp [isEmpty, h2.1, h2.2]
  · exact spawnCellsGo_nodup _ _ _ _ _ (getEmptyCells_nodup g)
  · exact spawnCellsGo_countOccupied _ _ _ _ _ (getEmptyCells_nodup g)
      (fun p hp => mem_getEmptyCells.mp hp) hc

/-- Witness for C5 on the empty starting grid with two colors and the
all-zero random oracle. -/
theorem spawnCells_spec_witness :
    (spawnCells createEmptyGrid [0, 1] (fun _ => 0)).2.length ≤
        min ([0, 1] : List Int).length (getEmptyCells createEmptyGrid).length ∧
      (∀ p ∈ (spawnCells createEmptyGrid [0, 1] (fun _ => 0)).2,
        isEmpty createEmptyGrid p = true) ∧
      (spawnCells createEmptyGrid [0, 1] (fun _ => 0)).2.Nodup ∧
      countOccupied (spawnCells createEmptyGrid [0, 1] (fun _ => 0)).1 =
        countOccupied createEmptyGrid +
          (spawnCells createEmptyGrid [0, 1] (fun _ => 0)).2.length :=
  spawnCells_spec createEmptyGrid [0, 1] (fun _ => 0) (by decide)

/-! ### Pathfinding (`findPath`)

The BFS of the source keeps a `visited` boolean grid, a `parent`
pointer grid and a FIFO queue. `processNeighbors` is the body of the
inner `for (const next of neighbors(cur))` loop, returning either the
updated state or, upon discovering `to`, the parent map used for path
reconstruction. `buildPath` is the parent-chain walk (the source walks
at most one step per cell, and `81 = GRID_SIZE²` bounds every chain the
algorithm can produce). -/

structure BfsState where
  visited : Pos → Bool
  parent : Pos → Option Pos
  queue : List Pos

def unvisitedCount (visited : Pos → Bool) : Nat :=
  (getAllValidPositions.filter fun p => !visited p).length

def processNeighbors (g : Grid) (s t cur : Pos) (st : BfsState) :
    List Pos → BfsState ⊕ (Pos → Option Pos)
  | [] => Sum.inl st
  | n :: ns =>
    if st.visited n = true then processNeighbors g s t cur st ns
    else if n ≠ s ∧ g n ≠ EMPTY_COLOR then processNeighbors g s t cur st ns
    else
      let visited' : Pos → Bool := fun p => if p = n then true else st.visited p
      let parent' : Pos → Option Pos := fun p => if p = n then some cur else st.parent p
      if n = t then Sum.inr parent'
      else processNeighbors g s t cur ⟨visited', parent', st.queue ++ [n]⟩ ns

theorem processNeighbors_measure (g : Grid) (s t cur : Pos) :
    ∀ (ns : List Pos) (st st' : BfsState), (∀ n ∈ ns, isValidCell n = true) →
      processNeighbors g s t cur st ns = Sum.inl st' →
      st'.queue.length + unvisitedCount st'.visited =
        st.queue.length + unvisitedCount st.visited := by
  intro ns
  induction ns with
  | nil =>
    intro st st' _ h
    simp only [processNeighbors] at h
    cases h
    rfl
  | cons n ns ih =>
    intro st st' hval h
    simp only [processNeighbors] at h
    by_cases hv : st.visited n = true
    · rw [if_pos hv] at h
      exact ih st st' (fun m hm => hval m (List.mem_cons_of_mem _ hm)) h
    · rw [if_neg hv] at h
      by_cases hskip : n ≠ s ∧ g n ≠ EMPTY_COLOR
      · rw [if_pos hskip] at h
        exact ih st st' (fun m hm => hval m (List.mem_cons_of_mem _ hm)) h
      · rw [if_neg hskip] at h
        by_cases hnt : n = t
        · rw [if_pos hnt] at h
          cases h
        · rw [if_neg hnt] at h
          have hrec := ih _ st' (fun m hm => hval m (List.mem_cons_of_mem _ hm)) h
          rw [hrec]
          simp only [List.length_append, List.length_singleton]
          have hcount : unvisitedCount st.visited =
              unvisitedCount (fun p => if p = n then true else st.visited p) + 1 := by
            unfold unvisitedCount
            refine length_filter_update getAllValidPositions_nodup
              (mem_getAllValidPositions.mpr (hval n (List.mem_cons_self _ _)))
              _ _ (fun q hq => ?_) ?_ ?_
            · simp [hq]
            · simp
            · simp only [Bool.not_eq_true] at hv
              simp [hv]
          omega

def buildPath (parent : Pos → Option Pos) (s : Pos) : Nat → Pos → List Pos
  | 0, _ => []
  | fuel + 1, p =>
    if p = s then []
    else
      match parent p with
      | none => [p]
      | some pr => p :: buildPath parent s fuel pr

def bfsLoop (g : Grid) (s t : Pos) (st : BfsState) : Option (List Pos) :=
  match hq : st.queue with
  | [] => none
  | cur :: rest =>
    match hpn : processNeighbors g s t cur ⟨st.visited, st.parent, rest⟩ (neighbors cur) with
    | Sum.inr par => some ((buildPath par s 81 t).reverse)
    | Sum.inl st' => bfsLoop g s t st'
  termination_by st.queue.length + unvisitedCount st.visited
  decreasing_by
    have hm := processNeighbors_measure g s t cur (neighbors cur)
      ⟨st.visited, st.parent, rest⟩ st' (fun n hn => mem_neighbors_valid hn) hpn
    simp only at hm
    rw [hq]
    simp only [List.length_cons]
    omega

/-- `findPath` from the source: validity guards, the `from == to`
short-circuit, the emptiness guard on `to`, then BFS from `from` with
`from` pre-marked visited. -/
def findPath (g : Grid) (s t : Pos) : Option (List Pos) :=
  if isValidCell s = false ∨ isValidCell t = false then none
  else if s = t then some []
  else if isEmpty g t = false then none
  else bfsLoop g s t ⟨fun p => decide (p = s), fun _ => none, [s]⟩

/-! ### The traversability graph of a `findPath` query

Vertices: valid cells that are empty, plus the source itself.
`Steps g s p n` means the BFS graph admits a walk of `n` hops from `s`
to `p`; `isPathTo` is the same property phrased, as the specification
does, about an explicit position sequence. -/

def traversable (g : Grid) (s p : Pos) : Prop :=
  isValidCell p = true ∧ (g p = EMPTY_COLOR ∨ p = s)

inductive Steps (g : Grid) (s : Pos) : Pos → Nat → Prop
  | zero : Steps g s s 0
  | succ {p q : Pos} {n : Nat} : Steps g s p n → q ∈ neighbors p →
      traversable g s q → Steps g s q (n + 1)

/-- `l` is a walk from `s` (exclusive) to `t` (inclusive) through the
traversability graph: consecutive positions are hex neighbors (with
`s` in front), every listed position is a vertex, and `t` is last. -/
def isPathTo (g : Grid) (s : Pos) (l : List Pos) (t : Pos) : Prop :=
  List.Chain (fun a b => b ∈ neighbors a) s l ∧
    (∀ p ∈ l, traversable g s p) ∧ l.getLast? = some t

/-- `n` is the minimum hop count from `s` to `p`. -/
def minSteps (g : Grid) (s p : Pos) (n : Nat) : Prop :=
  Steps g s p n ∧ ∀ m, Steps g s p m → n ≤ m

instance (g : Grid) (s p : Pos) : Decidable (traversable g s p) :=
  inferInstanceAs (Decidable (isValidCell p = true ∧ (g p = EMPTY_COLOR ∨ p = s)))

/-! ### C2 and C3: the guard order of `findPath`

The source checks `from == to` after the validity guard but before the
emptiness guard, so `findPath(g, p, p)` is `[]` for any valid `p`
(even an occupied one) and `null` for an invalid `p`. -/

/-- Counterexample to C2 as stated: with `(4,4)` occupied (color `0`),
`findPath(g, (4,4), (4,4))` returns the empty sequence, not null, even
though the destination is occupied. -/
theorem findPath_dest_not_empty_counterexample :
    0 ≤ updateCell createEmptyGrid (4, 4) 0 (4, 4) ∧
      findPath (updateCell createEmptyGrid (4, 4) 0) (4, 4) (4, 4) ≠ none ∧
      findPath (updateCell createEmptyGrid (4, 4) 0) (4, 4) (4, 4) = some [] := by
  refine ⟨by decide, ?_, by decide⟩
  decide

/-- C2 (amended): if `to` is invalid then `findPath` returns null for
every `from`; if `to` is valid but occupied then `findPath` returns
null for every `from ≠ to` — but for `from = to` (valid) the `from == to`
short-circuit fires first and the empty sequence is returned. -/
theorem findPath_dest_not_empty (g : Grid) (s t : Pos) :
    (isValidCell t = false → findPath g s t = none) ∧
      (isValidCell t = true → 0 ≤ g t → s ≠ t → findPath g s t = none) ∧
      (isValidCell t = true → 0 ≤ g t → findPath g t t = some []) := by
  refine ⟨fun ht => ?_, fun ht hocc hst => ?_, fun ht _ => ?_⟩
  · rw [findPath, if_pos (Or.inr ht)]
  · by_cases hs : isValidCell s = true
    · have hcond : ¬(isValidCell s = false ∨ isValidCell t = false) := by
        rw [hs, ht]
        simp
      rw [findPath, if_neg hcond, if_neg hst]
      have hne : isEmpty g t = false := by
        have : (g t == EMPTY_COLOR) = false := by
          rw [beq_eq_false_iff_ne]
          intro he
          rw [he] at hocc
          exact absurd hocc (by decide)
        simp [isEmpty, this]
      rw [if_pos hne]
    · have hs' : isValidCell s = false := by
        cases h : isValidCell s
        · rfl
        · exact absurd h hs
      rw [findPath, if_pos (Or.inl hs')]
  · have hcond : ¬(isValidCell t = false ∨ isValidCell t = false) := by
      rw [ht]
      simp
    rw [findPath, if_neg hcond, if_pos rfl]

/-- Witness for C2 (amended) at concrete inputs: an invalid
destination, and an occupied destination reached from a distinct
source. -/
theorem findPath_dest_not_empty_witness :
    findPath createEmptyGrid (4, 4) (0, 0) = none ∧
      findPath (updateCell createEmptyGrid (4, 4) 0) (4, 3) (4, 4) = none :=
  ⟨(findPath_dest_not_empty createEmptyGrid (4, 4) (0, 0)).1 (by decide),
    (findPath_dest_not_empty (updateCell createEmptyGrid (4, 4) 0) (4, 3) (4, 4)).2.1
      (by decide) (by decide) (by decide)⟩

/-- Counterexample to C3 as stated: for the invalid coordinate `(0,0)`
(outside the hexagon), `findPath(g, p, p)` returns null, not the empty
sequence, because the validity guard precedes the `from == to` check. -/
theorem findPath_self_counterexample :
    isValidCell (0, 0) = false ∧
      findPath createEmptyGrid (0, 0) (0, 0) = none ∧
      findPath createEmptyGrid (0, 0) (0, 0) ≠ some [] := by
  refine ⟨by decide, by decide, ?_⟩
  decide

/-- C3 (amended): `findPath(g, p, p)` returns the empty sequence for
every valid `p` (occupied or not); for an invalid `p` it returns null. -/
theorem findPath_self (g : Grid) (p : Pos) :
    (isValidCell p = true → findPath g p p = some []) ∧
      (isValidCell p = false → findPath g p p = none) := by
  constructor
  · intro hp
    have hcond : ¬(isValidCell p = false ∨ isValidCell p = false) := by
      rw [hp]
      simp
    rw [findPath, if_neg hcond, if_pos rfl]
  · intro hp
    rw [findPath, if_pos (Or.inl hp)]

/-- Witness for C3 (amended): the valid center cell, occupied, and an
invalid corner. -/
theorem findPath_self_witness :
    findPath (updateCell createEmptyGrid (4, 4) 2) (4, 4) (4, 4) = some [] ∧
      findPath createEmptyGrid (8, 8) (8, 8) = none :=
  ⟨(findPath_self (updateCell createEmptyGrid (4, 4) 2) (4, 4)).1 (by decide),
    (findPath_self createEmptyGrid (8, 8)).2 (by decide)⟩

/-! ### Game over (`isBoardFull`, `hasAnyMove`) -/

/-- C9: a full board admits no move — if no valid cell is `EMPTY`,
then no occupied cell has an `EMPTY` neighbor. -/
theorem isBoardFull_no_move (g : Grid) (hfull : isBoardFull g = true) :
    hasAnyMove g = false := by
  have hlen : (getEmptyCells g).length = 0 := by
    simpa [isBoardFull] using hfull
  rw [List.length_eq_zero] at hlen
  have hempty : ∀ p ∈ getAllValidPositions, ¬(g p = EMPTY_COLOR) := by
    intro p hp he
    have hmem : p ∈ getEmptyCells g := List.mem_filter.mpr ⟨hp, by simp [he]⟩
    rw [hlen] at hmem
    cases hmem
  cases hmv : hasAnyMove g
  · rfl
  · exfalso
    unfold hasAnyMove at hmv
    rw [List.any_eq_true] at hmv
    obtain ⟨p, _, hcond⟩ := hmv
    rw [Bool.and_eq_true] at hcond
    obtain ⟨-, hnb⟩ := hcond
    rw [List.any_eq_true] at hnb
    obtain ⟨n, hn, hne⟩ := hnb
    exact hempty n (mem_getAllValidPositions.mpr (mem_neighbors_valid hn))
      (by rwa [beq_iff_eq] at hne)

/-- A grid with every valid cell occupied by color `0`. -/
def fullGrid : Grid := fun p =>
  if isValidCell p then 0 else BLOCKED_COLOR

/-- Witness for C9 on the all-occupied grid. -/
theorem isBoardFull_no_move_witness :
    isBoardFull fullGrid = true ∧ hasAnyMove fullGrid = false :=
  ⟨by decide, isBoardFull_no_move fullGrid (by decide)⟩

/-! ### Walk lemmas -/

theorem steps_zero_inv {g : Grid} {s p : Pos} (h : Steps g s p 0) : p = s := by
  cases h
  rfl

theorem steps_src_or_traversable {g : Grid} {s p : Pos} {n : Nat} (h : Steps g s p n) :
    p = s ∨ traversable g s p := by
  cases h with
  | zero => exact Or.inl rfl
  | succ _ _ ht => exact Or.inr ht

theorem steps_succ_inv {g : Grid} {s p : Pos} {n : Nat} (h : Steps g s p (n + 1)) :
    ∃ q, Steps g s q n ∧ p ∈ neighbors q ∧ traversable g s p := by
  cases h with
  | succ hq hn ht => exact ⟨_, hq, hn, ht⟩

theorem chain_snoc {R : Pos → Pos → Prop} :
    ∀ (l : List Pos) (a b c : Pos), List.Chain R a l → (a :: l).getLast? = some c →
      R c b → List.Chain R a (l ++ [b]) := by
  intro l
  induction l with
  | nil =>
    intro a b c _ hlast hr
    have hac : a = c := by
      simpa using hlast
    exact List.Chain.cons (hac ▸ hr) List.Chain.nil
  | cons x l' ih =>
    intro a b c hchain hlast hr
    cases hchain with
    | cons hax hxl =>
      have hlast' : (x :: l').getLast? = some c := by
        rwa [List.getLast?_cons_cons] at hlast
      exact List.Chain.cons hax (ih x b c hxl hlast' hr)

theorem chain_snoc_inv {R : Pos → Pos → Prop} :
    ∀ (l : List Pos) (a b : Pos), List.Chain R a (l ++ [b]) →
      List.Chain R a l ∧ ∃ c, (a :: l).getLast? = some c ∧ R c b := by
  intro l
  induction l with
  | nil =>
    intro a b hchain
    cases hchain with
    | cons hab _ => exact ⟨List.Chain.nil, a, by simp, hab⟩
  | cons x l' ih =>
    intro a b hchain
    cases hchain with
    | cons hax hxl =>
      obtain ⟨hc, c, hlast, hr⟩ := ih x b hxl
      exact ⟨List.Chain.cons hax hc, c, by rwa [List.getLast?_cons_cons], hr⟩

theorem isPathTo_steps {g : Grid} {s : Pos} :
    ∀ (l : List Pos) (t : Pos), isPathTo g s l t → Steps g s t l.length := by
  intro l
  induction l using List.reverseRecOn with
  | nil =>
    intro t h
    obtain ⟨-, -, hlast⟩ := h
    simp at hlast
  | append_singleton l' b ih =>
    intro t h
    obtain ⟨hchain, htrav, hlast⟩ := h
    have hb : b = t := by
      rw [List.getLast?_concat] at hlast
      exact Option.some_inj.mp hlast
    subst hb
    obtain ⟨hchain', c, hlastc, hr⟩ := chain_snoc_inv l' s b hchain
    have htb : traversable g s b := htrav b (by simp)
    rcases l' with _ | ⟨x, l''⟩
    · have hcs : s = c := by simpa using hlastc
      subst hcs
      simpa using Steps.succ Steps.zero hr htb
    · have hlast' : (x :: l'').getLast? = some c := by
        rwa [List.getLast?_cons_cons] at hlastc
      have hsc : Steps g s c (x :: l'').length := by
        refine ih c ⟨hchain', fun p hp => htrav p ?_, hlast'⟩
        exact List.mem_append_left _ hp
      simpa using Steps.succ hsc hr htb

/-! ### Parent-chain facts carried by the BFS invariant -/

structure ParentInv (g : Grid) (s : Pos) (vis : Pos → Bool) (par : Pos → Option Pos)
    (lvl : Pos → Nat) : Prop where
  vis_s : vis s = true
  lvl_s : lvl s = 0
  dist : ∀ p, vis p = true → minSteps g s p (lvl p)
  chain : ∀ p, vis p = true → p ≠ s → ∃ pr, par p = some pr ∧ vis pr = true ∧
      p ∈ neighbors pr ∧ traversable g s p ∧ lvl p = lvl pr + 1

theorem parentInv_valid {g : Grid} {s : Pos} {vis : Pos → Bool} {par : Pos → Option Pos}
    {lvl : Pos → Nat} (P : ParentInv g s vis par lvl) (hs : isValidCell s = true)
    {p : Pos} (hp : vis p = true) : isValidCell p = true := by
  by_cases hps : p = s
  · exact hps ▸ hs
  · obtain ⟨pr, -, -, -, htrav, -⟩ := P.chain p hp hps
    exact htrav.1

theorem parentInv_chainList {g : Grid} {s : Pos} {vis : Pos → Bool} {par : Pos → Option Pos}
    {lvl : Pos → Nat} (P : ParentInv g s vis par lvl) (hs : isValidCell s = true) :
    ∀ (n : Nat) (p : Pos), vis p = true → lvl p = n →
      ∃ cl : List Pos, cl.Nodup ∧ (∀ x ∈ cl, isValidCell x = true ∧ lvl x ≤ n) ∧
        cl.length = n + 1 := by
  intro n
  induction n with
  | zero =>
    intro p hp hl
    refine ⟨[p], List.nodup_singleton p, ?_, rfl⟩
    intro x hx
    rw [List.mem_singleton] at hx
    subst hx
    exact ⟨parentInv_valid P hs hp, by omega⟩
  | succ n ih =>
    intro p hp hl
    have hps : p ≠ s := by
      intro h
      rw [h, P.lvl_s] at hl
      cases hl
    obtain ⟨pr, -, hprvis, -, -, hstep⟩ := P.chain p hp hps
    have hprl : lvl pr = n := by omega
    obtain ⟨cl, hnd, hprop, hlen⟩ := ih pr hprvis hprl
    refine ⟨p :: cl, ?_, ?_, by simp [hlen]⟩
    · rw [List.nodup_cons]
      refine ⟨fun hmem => ?_, hnd⟩
      have := (hprop p hmem).2
      omega
    · intro x hx
      rcases List.mem_cons.mp hx with rfl | hx
      · exact ⟨parentInv_valid P hs hp, by omega⟩
      · exact ⟨(hprop x hx).1, Nat.le_succ_of_le (hprop x hx).2⟩

theorem parentInv_lvl_le {g : Grid} {s : Pos} {vis : Pos → Bool} {par : Pos → Option Pos}
    {lvl : Pos → Nat} (P : ParentInv g s vis par lvl) (hs : isValidCell s = true)
    {p : Pos} (hp : vis p = true) : lvl p ≤ 60 := by
  obtain ⟨cl, hnd, hprop, hlen⟩ := parentInv_chainList P hs (lvl p) p hp rfl
  have hsub : cl ⊆ getAllValidPositions := fun x hx =>
    mem_getAllValidPositions.mpr (hprop x hx).1
  have hle : cl.length ≤ getAllValidPositions.length :=
    (hnd.subperm hsub).length_le
  have hcard : getAllValidPositions.length = 61 := by decide
  omega

theorem buildPath_src (par : Pos → Option Pos) (s : Pos) :
    ∀ fuel, buildPath par s fuel s = [] := by
  intro fuel
  cases fuel with
  | zero => rfl
  | succ f => simp [buildPath]

theorem buildPath_spec {g : Grid} {s : Pos} {vis : Pos → Bool} {par : Pos → Option Pos}
    {lvl : Pos → Nat} (P : ParentInv g s vis par lvl) :
    ∀ (n fuel : Nat) (p : Pos), vis p = true → p ≠ s → lvl p = n → n ≤ fuel →
      (buildPath par s fuel p).reverse.getLast? = some p ∧
      List.Chain (fun a b => b ∈ neighbors a) s (buildPath par s fuel p).reverse ∧
      (buildPath par s fuel p).length = n ∧
      (∀ x ∈ buildPath par s fuel p, vis x = true ∧ x ≠ s ∧ traversable g s x ∧
        1 ≤ lvl x ∧ lvl x ≤ n) ∧
      (buildPath par s fuel p).Nodup := by
  intro n
  induction n with
  | zero =>
    intro fuel p hvis hps hl _
    obtain ⟨pr, -, -, -, -, hstep⟩ := P.chain p hvis hps
    omega
  | succ n ih =>
    intro fuel p hvis hps hl hf
    obtain ⟨pr, hpar, hprvis, hnb, htrav, hstep⟩ := P.chain p hvis hps
    obtain ⟨f, rfl⟩ : ∃ f, fuel = f + 1 := ⟨fuel - 1, by omega⟩
    have hunfold : buildPath par s (f + 1) p = p :: buildPath par s f pr := by
      rw [buildPath, if_neg hps, hpar]
    by_cases hprs : pr = s
    · have hn0 : n = 0 := by
        rw [hprs, P.lvl_s] at hstep
        omega
      have hnb' : p ∈ neighbors s := hprs ▸ hnb
      have hbuild : buildPath par s (f + 1) p = [p] := by
        rw [hunfold, hprs, buildPath_src]
      rw [hbuild]
      refine ⟨by simp, ?_, by simp [hn0], ?_, List.nodup_singleton p⟩
      · have hchain1 : List.Chain (fun a b => b ∈ neighbors a) s [p] :=
          List.Chain.cons hnb' List.Chain.nil
        simpa using hchain1
      · intro x hx
        rw [List.mem_singleton] at hx
        subst hx
        exact ⟨hvis, hps, htrav, by omega, by omega⟩
    · have hprl : lvl pr = n := by omega
      obtain ⟨hlast, hchain, hlen, hmem, hnd⟩ := ih f pr hprvis hprs hprl (by omega)
      have hn1 : 1 ≤ n := by
        obtain ⟨pr2, -, -, -, -, hstep2⟩ := P.chain pr hprvis hprs
        omega
      rw [hunfold]
      have hrev : (p :: buildPath par s f pr).reverse =
          (buildPath par s f pr).reverse ++ [p] := by simp
      constructor
      · rw [hrev, List.getLast?_concat]
      constructor
      · rw [hrev]
        have hne : (buildPath par s f pr).reverse ≠ [] := by
          intro h
          rw [List.reverse_eq_nil_iff] at h
          rw [h] at hlen
          simp at hlen
          omega
        obtain ⟨y, L, hyl⟩ : ∃ y L, (buildPath par s f pr).reverse = y :: L := by
          rcases hrl : (buildPath par s f pr).reverse with _ | ⟨y, L⟩
          · exact absurd hrl hne
          · exact ⟨y, L, rfl⟩
        refine chain_snoc _ s p pr hchain ?_ hnb
        rw [hyl]
        rw [hyl] at hlast
        rw [List.getLast?_cons_cons]
        exact hlast
      constructor
      · simp [hlen]
      constructor
      · intro x hx
        rcases List.mem_cons.mp hx with rfl | hx
        · exact ⟨hvis, hps, htrav, by omega, by omega⟩
        · obtain ⟨h1, h2, h3, h4, h5⟩ := hmem x hx
          exact ⟨h1, h2, h3, h4, by omega⟩
      · rw [List.nodup_cons]
        refine ⟨fun hmemp => ?_, hnd⟩
        have := (hmem p hmemp).2.2.2.2
        omega

/-! ### The BFS loop invariant -/

structure LoopInv (g : Grid) (s t : Pos) (st : BfsState) (lvl : Pos → Nat) (k : Nat) : Prop where
  pinv : ParentInv g s st.visited st.parent lvl
  complete : ∀ p, traversable g s p → ∀ m, m ≤ k → Steps g s p m → st.visited p = true
  queue_vis : ∀ q ∈ st.queue, st.visited q = true
  queue_nodup : st.queue.Nodup
  split : ∃ A B, st.queue = A ++ B ∧ (∀ a ∈ A, lvl a = k) ∧ (∀ b ∈ B, lvl b = k + 1)
  closed : ∀ q, st.visited q = true → q ∉ st.queue →
      ∀ n ∈ neighbors q, traversable g s n → st.visited n = true
  t_unvis : st.visited t = false

structure MidInv (g : Grid) (s t cur : Pos) (ns : List Pos) (st : BfsState)
    (lvl : Pos → Nat) (k : Nat) : Prop where
  pinv : ParentInv g s st.visited st.parent lvl
  complete : ∀ p, traversable g s p → ∀ m, m ≤ k → Steps g s p m → st.visited p = true
  queue_vis : ∀ q ∈ st.queue, st.visited q = true
  queue_nodup : st.queue.Nodup
  split : ∃ A B, st.queue = A ++ B ∧ (∀ a ∈ A, lvl a = k) ∧ (∀ b ∈ B, lvl b = k + 1)
  cur_vis : st.visited cur = true
  cur_lvl : lvl cur = k
  cur_not_queue : cur ∉ st.queue
  closed : ∀ q, st.visited q = true → q ≠ cur → q ∉ st.queue →
      ∀ n ∈ neighbors q, traversable g s n → st.visited n = true
  cur_prefix : ∀ n ∈ neighbors cur, n ∉ ns → traversable g s n → st.visited n = true
  t_unvis : st.visited t = false

/-- What the neighbor-processing loop guarantees about its result. -/
def pnGood (g : Grid) (s t cur : Pos) (k : Nat) :
    BfsState ⊕ (Pos → Option Pos) → Prop
  | Sum.inl st' => ∃ lvl', MidInv g s t cur [] st' lvl' k
  | Sum.inr par' => ∃ (vis' : Pos → Bool) (lvl' : Pos → Nat),
      ParentInv g s vis' par' lvl' ∧ vis' t = true

theorem processNeighbors_spec (g : Grid) (s t cur : Pos) :
    ∀ (ns : List Pos) (st : BfsState) (lvl : Pos → Nat) (k : Nat),
      (∀ n ∈ ns, n ∈ neighbors cur) →
      MidInv g s t cur ns st lvl k →
      pnGood g s t cur k (processNeighbors g s t cur st ns) := by
  intro ns
  induction ns with
  | nil =>
    intro st lvl k _ M
    exact ⟨lvl, M⟩
  | cons n ns ih =>
    intro st lvl k hsub M
    have hsub' : ∀ x ∈ ns, x ∈ neighbors cur := fun x hx => hsub x (List.mem_cons_of_mem _ hx)
    simp only [processNeighbors]
    by_cases hv : st.visited n = true
    · rw [if_pos hv]
      refine ih st lvl k hsub' ?_
      refine { M with cur_prefix := ?_ }
      intro x hx hxns htx
      by_cases hxn : x = n
      · exact hxn ▸ hv
      · exact M.cur_prefix x hx
          (fun hmem => (List.mem_cons.mp hmem).elim hxn hxns) htx
    · rw [if_neg hv]
      by_cases hskip : n ≠ s ∧ g n ≠ EMPTY_COLOR
      · rw [if_pos hskip]
        refine ih st lvl k hsub' ?_
        refine { M with cur_prefix := ?_ }
        intro x hx hxns htx
        by_cases hxn : x = n
        · subst hxn
          rcases htx.2 with he | hes
          · exact absurd he hskip.2
          · exact absurd hes hskip.1
        · exact M.cur_prefix x hx
            (fun hmem => (List.mem_cons.mp hmem).elim hxn hxns) htx
      · rw [if_neg hskip]
        have hns : n ≠ s := by
          intro h
          exact hv (h ▸ M.pinv.vis_s)
        have hnE : g n = EMPTY_COLOR := by
          rcases Decidable.not_and_iff_or_not.mp hskip with h | h
          · exact absurd hns (not_not.mp h ▸ fun hc => hc rfl)
          · exact not_not.mp h
        have hnval : isValidCell n = true :=
          mem_neighbors_valid (hsub n (List.mem_cons_self _ _))
        have htrav_n : traversable g s n := ⟨hnval, Or.inl hnE⟩
        have hnqueue : n ∉ st.queue := by
          intro hq
          exact hv (M.queue_vis n hq)
        have hncur : n ≠ cur := by
          intro h
          exact hv (h ▸ M.cur_vis)
        have hcurk : Steps g s cur k := M.cur_lvl ▸ (M.pinv.dist cur M.cur_vis).1
        have hminn : minSteps g s n (k + 1) := by
          constructor
          · exact Steps.succ hcurk (hsub n (List.mem_cons_self _ _)) htrav_n
          · intro m hm
            by_contra hlt
            push_neg at hlt
            exact hv (M.complete n htrav_n m (by omega) hm)
        have P' : ParentInv g s (fun p => if p = n then true else st.visited p)
            (fun p => if p = n then some cur else st.parent p)
            (fun p => if p = n then k + 1 else lvl p) := by
          refine ⟨?_, ?_, ?_, ?_⟩
          · rw [if_neg (Ne.symm hns)]
            exact M.pinv.vis_s
          · rw [if_neg (Ne.symm hns)]
            exact M.pinv.lvl_s
          · intro p hp
            by_cases hpn : p = n
            · subst hpn
              rw [if_pos rfl]
              exact hminn
            · rw [if_neg hpn]
              rw [if_neg hpn] at hp
              exact M.pinv.dist p hp
          · intro p hp hps
            by_cases hpn : p = n
            · subst hpn
              refine ⟨cur, by rw [if_pos rfl], ?_, hsub p (List.mem_cons_self _ _), htrav_n, ?_⟩
              · rw [if_neg (Ne.symm hncur)]
                exact M.cur_vis
              · rw [if_pos rfl, if_neg (Ne.symm hncur), M.cur_lvl]
            · rw [if_neg hpn] at hp
              obtain ⟨pr, hpar, hprvis, hnb, htrav, hstep⟩ := M.pinv.chain p hp hps
              have hprn : pr ≠ n := by
                intro h
                exact hv (h ▸ hprvis)
              refine ⟨pr, ?_, ?_, hnb, htrav, ?_⟩
              · rw [if_neg hpn]
                exact hpar
              · rw [if_neg hprn]
                exact hprvis
              · rw [if_neg hpn, if_neg hprn]
                exact hstep
        by_cases hnt : n = t
        · rw [if_pos hnt]
          refine ⟨fun p => if p = n then true else st.visited p,
            fun p => if p = n then k + 1 else lvl p, P', ?_⟩
          rw [← hnt]
          simp
        · rw [if_neg hnt]
          refine ih ⟨fun p => if p = n then true else st.visited p,
            fun p => if p = n then some cur else st.parent p,
            st.queue ++ [n]⟩ (fun p => if p = n then k + 1 else lvl p) k hsub' ?_
          obtain ⟨A, B, hAB, hA, hB⟩ := M.split
          refine ⟨P', ?_, ?_, ?_, ?_, ?_, ?_, ?_, ?_, ?_, ?_⟩
          all_goals dsimp only
          · intro p htp m hm hsteps
            by_cases hpn : p = n
            · rw [if_pos hpn]
            · rw [if_neg hpn]
              exact M.complete p htp m hm hsteps
          · intro q hq
            rcases List.mem_append.mp hq with hq | hq
            · have := M.queue_vis q hq
              by_cases hqn : q = n
              · rw [if_pos hqn]
              · rw [if_neg hqn]
                exact this
            · rw [List.mem_singleton] at hq
              rw [if_pos hq]
          · rw [List.nodup_append]
            exact ⟨M.queue_nodup, List.nodup_singleton n, by
              intro x hx hx2
              rw [List.mem_singleton] at hx2
              exact hnqueue (hx2 ▸ hx)⟩
          · refine ⟨A, B ++ [n], by rw [hAB, List.append_assoc], ?_, ?_⟩
            · intro a ha
              have hav : st.visited a = true := M.queue_vis a (hAB ▸ List.mem_append_left _ ha)
              have han : a ≠ n := by
                intro h
                exact hv (h ▸ hav)
              rw [if_neg han]
              exact hA a ha
            · intro b hb
              rcases List.mem_append.mp hb with hb | hb
              · have hbv : st.visited b = true := M.queue_vis b (hAB ▸ List.mem_append_right _ hb)
                have hbn : b ≠ n := by
                  intro h
                  exact hv (h ▸ hbv)
                rw [if_neg hbn]
                exact hB b hb
              · rw [List.mem_singleton] at hb
                rw [if_pos hb]
          · rw [if_neg (Ne.symm hncur)]
            exact M.cur_vis
          · rw [if_neg (Ne.symm hncur)]
            exact M.cur_lvl
          · intro hq
            rcases List.mem_append.mp hq with hq | hq
            · exact M.cur_not_queue hq
            · rw [List.mem_singleton] at hq
              exact hncur hq.symm
          · intro q hqv hqcur hqq
            have hqn : q ≠ n := by
              intro h
              exact hqq (List.mem_append_right _ (List.mem_singleton.mpr h))
            rw [if_neg hqn] at hqv
            have hqq' : q ∉ st.queue := fun hmem => hqq (List.mem_append_left _ hmem)
            intro x hx htx
            have := M.closed q hqv hqcur hqq' x hx htx
            by_cases hxn : x = n
            · rw [if_pos hxn]
            · rw [if_neg hxn]
              exact this
          · intro x hx hxns htx
            by_cases hxn : x = n
            · rw [if_pos hxn]
            · rw [if_neg hxn]
              exact M.cur_prefix x hx
                (fun hmem => (List.mem_cons.mp hmem).elim hxn hxns) htx
          · have htn : t ≠ n := fun h => hnt h.symm
            rw [if_neg htn]
            exact M.t_unvis

theorem midInv_nil_loopInv {g : Grid} {s t cur : Pos} {st : BfsState} {lvl : Pos → Nat}
    {k : Nat} (M : MidInv g s t cur [] st lvl k) : LoopInv g s t st lvl k := by
  refine ⟨M.pinv, M.complete, M.queue_vis, M.queue_nodup, M.split, ?_, M.t_unvis⟩
  intro q hqv hqq x hx htx
  by_cases hqcur : q = cur
  · subst hqcur
    exact M.cur_prefix x hx (List.not_mem_nil x) htx
  · exact M.closed q hqv hqcur hqq x hx htx

theorem loopInv_dequeue {g : Grid} {s t : Pos} {st : BfsState} {lvl : Pos → Nat} {k : Nat}
    (L : LoopInv g s t st lvl k) {cur : Pos} {rest : List Pos}
    (hq : st.queue = cur :: rest) :
    ∃ k', MidInv g s t cur (neighbors cur) ⟨st.visited, st.parent, rest⟩ lvl k' := by
  obtain ⟨A, B, hAB, hA, hB⟩ := L.split
  have hnodup := L.queue_nodup
  rw [hq] at hnodup
  have hcur_rest : cur ∉ rest := (List.nodup_cons.mp hnodup).1
  have hrest_nodup : rest.Nodup := (List.nodup_cons.mp hnodup).2
  have hcurq : cur ∈ st.queue := hq ▸ List.mem_cons_self cur rest
  have hcur_vis : st.visited cur = true := L.queue_vis cur hcurq
  rcases A with _ | ⟨a, A0⟩
  · have hqB : st.queue = B := by rw [hAB]; rfl
    have hallB : ∀ x ∈ st.queue, lvl x = k + 1 := fun x hx => hB x (hqB ▸ hx)
    have hcomp : ∀ p, traversable g s p → ∀ m, m ≤ k + 1 → Steps g s p m →
        st.visited p = true := by
      intro p htp m hm hsteps
      by_cases hmk : m ≤ k
      · exact L.complete p htp m hmk hsteps
      · have hm1 : m = k + 1 := by omega
        subst hm1
        obtain ⟨q, hq', hnb, _⟩ := steps_succ_inv hsteps
        have hqv : st.visited q = true := by
          rcases steps_src_or_traversable hq' with rfl | htq
          · exact L.pinv.vis_s
          · exact L.complete q htq k (le_refl k) hq'
        have hqnq : q ∉ st.queue := by
          intro hmem
          have hlq : lvl q = k + 1 := hallB q hmem
          have := (L.pinv.dist q hqv).2 k hq'
          omega
        exact L.closed q hqv hqnq p hnb htp
    refine ⟨k + 1, L.pinv, hcomp, ?_, hrest_nodup,
      ⟨rest, [], by simp, ?_, ?_⟩, hcur_vis, ?_, hcur_rest, ?_, ?_, L.t_unvis⟩
    · intro q hqr
      exact L.queue_vis q (hq ▸ List.mem_cons_of_mem _ hqr)
    · intro a ha
      exact hallB a (hq ▸ List.mem_cons_of_mem _ ha)
    · intro b hb
      cases hb
    · exact hallB cur hcurq
    · intro q hqv hqcur hqrest x hx htx
      have hqq : q ∉ st.queue := by
        rw [hq]
        intro hmem
        rcases List.mem_cons.mp hmem with h | h
        · exact hqcur h
        · exact hqrest h
      exact L.closed q hqv hqq x hx htx
    · intro x hx hxns
      exact absurd hx hxns
  · have heq : cur :: rest = a :: (A0 ++ B) := by
      rw [← hq, hAB]
      rfl
    have hca : cur = a := by
      injection heq
    have hrestAB : rest = A0 ++ B := by
      injection heq
    refine ⟨k, L.pinv, L.complete, ?_, hrest_nodup,
      ⟨A0, B, hrestAB, fun x hx => hA x (List.mem_cons_of_mem _ hx), hB⟩,
      hcur_vis, ?_, hcur_rest, ?_, ?_, L.t_unvis⟩
    · intro q hqr
      exact L.queue_vis q (hq ▸ List.mem_cons_of_mem _ hqr)
    · rw [hca]
      exact hA a (List.mem_cons_self _ _)
    · intro q hqv hqcur hqrest x hx htx
      have hqq : q ∉ st.queue := by
        rw [hq]
        intro hmem
        rcases List.mem_cons.mp hmem with h | h
        · exact hqcur h
        · exact hqrest h
      exact L.closed q hqv hqq x hx htx
    · intro x hx hxns
      exact absurd hx hxns

theorem loopInv_none_case {g : Grid} {s t : Pos} {st : BfsState} {lvl : Pos → Nat}
    {k : Nat} (L : LoopInv g s t st lvl k) (hqnil : st.queue = []) :
    ∀ m, ¬Steps g s t m := by
  have hvis : ∀ (m : Nat) (p : Pos), Steps g s p m → st.visited p = true := by
    intro m p hsteps
    induction hsteps with
    | zero => exact L.pinv.vis_s
    | succ h hn ht ih =>
      refine L.closed _ ih ?_ _ hn ht
      rw [hqnil]
      exact List.not_mem_nil _
  intro m hm
  have hvt := hvis m t hm
  rw [L.t_unvis] at hvt
  cases hvt

theorem foundPath_assemble {g : Grid} {s t : Pos} {vis' : Pos → Bool}
    {par : Pos → Option Pos} {lvl' : Pos → Nat} (P' : ParentInv g s vis' par lvl')
    (hs : isValidCell s = true) (hts : t ≠ s) (hvt : vis' t = true) :
    (buildPath par s 81 t).reverse.getLast? = some t ∧
      List.Chain (fun a b => b ∈ neighbors a) s (buildPath par s 81 t).reverse ∧
      s ∉ (buildPath par s 81 t).reverse ∧
      (∀ x ∈ (buildPath par s 81 t).reverse,
        isValidCell x = true ∧ g x = EMPTY_COLOR) ∧
      (buildPath par s 81 t).reverse.Nodup ∧
      minSteps g s t (buildPath par s 81 t).reverse.length := by
  have hlvl60 : lvl' t ≤ 60 := parentInv_lvl_le P' hs hvt
  obtain ⟨hlast, hchain, hlen, hmem, hnd⟩ :=
    buildPath_spec P' (lvl' t) 81 t hvt hts rfl (by omega)
  refine ⟨hlast, hchain, ?_, ?_, ?_, ?_⟩
  · intro hsmem
    rw [List.mem_reverse] at hsmem
    exact (hmem s hsmem).2.1 rfl
  · intro x hx
    rw [List.mem_reverse] at hx
    obtain ⟨-, hxs, htx, -, -⟩ := hmem x hx
    rcases htx.2 with he | hes
    · exact ⟨htx.1, he⟩
    · exact absurd hes hxs
  · exact List.nodup_reverse.mpr hnd
  · rw [List.length_reverse, hlen]
    exact P'.dist t hvt

theorem bfsLoop_spec (g : Grid) (s t : Pos) (hs : isValidCell s = true) (hst : s ≠ t) :
    ∀ (N : Nat) (st : BfsState) (lvl : Pos → Nat) (k : Nat),
      st.queue.length + unvisitedCount st.visited ≤ N →
      LoopInv g s t st lvl k →
      (bfsLoop g s t st = none → ∀ m, ¬Steps g s t m) ∧
      (∀ path, bfsLoop g s t st = some path →
        path.getLast? = some t ∧
        List.Chain (fun a b => b ∈ neighbors a) s path ∧
        s ∉ path ∧
        (∀ x ∈ path, isValidCell x = true ∧ g x = EMPTY_COLOR) ∧
        path.Nodup ∧
        minSteps g s t path.length) := by
  intro N
  induction N with
  | zero =>
    intro st lvl k hN L
    have hqnil : st.queue = [] := List.length_eq_zero.mp (by omega)
    have hnone : bfsLoop g s t st = none := by
      rw [bfsLoop.eq_def]
      split
      · rfl
      · rename_i cur rest heq
        rw [hqnil] at heq
        cases heq
    refine ⟨fun _ => loopInv_none_case L hqnil, fun path hpath => ?_⟩
    rw [hnone] at hpath
    cases hpath
  | succ N ih =>
    intro st lvl k hN L
    rcases hq : st.queue with _ | ⟨cur, rest⟩
    · have hnone : bfsLoop g s t st = none := by
        rw [bfsLoop.eq_def]
        split
        · rfl
        · rename_i cur rest heq
          rw [hq] at heq
          cases heq
      refine ⟨fun _ => loopInv_none_case L hq, fun path hpath => ?_⟩
      rw [hnone] at hpath
      cases hpath
    · obtain ⟨k', M⟩ := loopInv_dequeue L hq
      have heval_inl : ∀ st',
          processNeighbors g s t cur ⟨st.visited, st.parent, rest⟩ (neighbors cur) =
            Sum.inl st' → bfsLoop g s t st = bfsLoop g s t st' := by
        intro st' hpn
        rw [bfsLoop.eq_def]
        split
        · rename_i heq
          rw [hq] at heq
          cases heq
        · rename_i cur' rest' heq
          rw [hq] at heq
          injection heq with h1 h2
          subst h1
          subst h2
          split
          · rename_i par hpn2
            rw [hpn] at hpn2
            cases hpn2
          · rename_i st'' hpn2
            rw [hpn] at hpn2
            injection hpn2 with h3
            rw [h3]
      have heval_inr : ∀ par,
          processNeighbors g s t cur ⟨st.visited, st.parent, rest⟩ (neighbors cur) =
            Sum.inr par → bfsLoop g s t st = some ((buildPath par s 81 t).reverse) := by
        intro par hpn
        rw [bfsLoop.eq_def]
        split
        · rename_i heq
          rw [hq] at heq
          cases heq
        · rename_i cur' rest' heq
          rw [hq] at heq
          injection heq with h1 h2
          subst h1
          subst h2
          split
          · rename_i par' hpn2
            rw [hpn] at hpn2
            injection hpn2 with h3
            rw [h3]
          · rename_i st'' hpn2
            rw [hpn] at hpn2
            cases hpn2
      have hpn_good := processNeighbors_spec g s t cur (neighbors cur)
        ⟨st.visited, st.parent, rest⟩ lvl k' (fun n hn => hn) M
      rcases hpn : processNeighbors g s t cur ⟨st.visited, st.parent, rest⟩ (neighbors cur)
        with st' | par
      · rw [hpn] at hpn_good
        simp only [pnGood] at hpn_good
        obtain ⟨lvl', M'⟩ := hpn_good
        have L' := midInv_nil_loopInv M'
        have hmeas := processNeighbors_measure g s t cur (neighbors cur)
          ⟨st.visited, st.parent, rest⟩ st' (fun n hn => mem_neighbors_valid hn) hpn
        simp only at hmeas
        have hNlen := hN
        rw [hq] at hNlen
        simp only [List.length_cons] at hNlen
        have hle : st'.queue.length + unvisitedCount st'.visited ≤ N := by omega
        have hres := ih st' lvl' k' hle L'
        rw [heval_inl st' hpn]
        exact hres
      · rw [hpn] at hpn_good
        simp only [pnGood] at hpn_good
        obtain ⟨vis', lvl', P', hvt⟩ := hpn_good
        constructor
        · intro hnone
          rw [heval_inr par hpn] at hnone
          cases hnone
        · intro path hpath
          rw [heval_inr par hpn] at hpath
          injection hpath with hpatheq
          subst hpatheq
          exact foundPath_assemble P' hs (Ne.symm hst) hvt

/-- C1: for a valid occupied source, a distinct valid empty
destination, and any grid: if the destination is reachable through
empty cells then `findPath` returns a sequence that ends at `to`,
excludes `from`, moves by hex-neighbor steps, stays on empty cells,
never repeats a position, and has minimum hop count; if it is not
reachable, `findPath` returns null. -/
theorem findPath_spec (g : Grid) (s t : Pos)
    (hs : isValidCell s = true) (hocc : 0 ≤ g s) (ht : isValidCell t = true)
    (hte : g t = EMPTY_COLOR) (hst : s ≠ t) :
    ((¬∃ l, isPathTo g s l t) → findPath g s t = none) ∧
      (∀ l₀, isPathTo g s l₀ t → ∃ path, findPath g s t = some path ∧
        path.getLast? = some t ∧ s ∉ path ∧
        List.Chain (fun a b => b ∈ neighbors a) s path ∧
        (∀ x ∈ path, isValidCell x = true ∧ g x = EMPTY_COLOR) ∧
        path.Nodup ∧ isPathTo g s path t ∧
        (∀ l, isPathTo g s l t → path.length ≤ l.length)) := by
  have hcond : ¬(isValidCell s = false ∨ isValidCell t = false) := by
    rw [hs, ht]
    simp
  have hemp : isEmpty g t = true := by simp [isEmpty, ht, hte]
  have hemp' : ¬(isEmpty g t = false) := by
    rw [hemp]
    simp
  have heval : findPath g s t =
      bfsLoop g s t ⟨fun p => decide (p = s), fun _ => none, [s]⟩ := by
    rw [findPath, if_neg hcond, if_neg hst, if_neg hemp']
  have hts : t ≠ s := fun h => hst h.symm
  have L0 : LoopInv g s t ⟨fun p => decide (p = s), fun _ => none, [s]⟩ (fun _ => 0) 0 := by
    refine ⟨⟨?_, rfl, ?_, ?_⟩, ?_, ?_, ?_, ?_, ?_, ?_⟩
    · simp
    · intro p hp
      dsimp only at hp
      have hps : p = s := of_decide_eq_true hp
      subst hps
      exact ⟨Steps.zero, fun m _ => Nat.zero_le m⟩
    · intro p hp hps
      dsimp only at hp
      exact absurd (of_decide_eq_true hp) hps
    · intro p _ m hm hsteps
      have hm0 : m = 0 := by omega
      subst hm0
      have hps := steps_zero_inv hsteps
      subst hps
      simp
    · intro q hq
      dsimp only
      rw [List.mem_singleton] at hq
      subst hq
      simp
    · exact List.nodup_singleton s
    · exact ⟨[s], [], rfl, fun a _ => rfl, fun b hb => absurd hb (List.not_mem_nil b)⟩
    · intro q hqv hqq x hx htx
      dsimp only at hqv
      have hqs : q = s := of_decide_eq_true hqv
      exact absurd (List.mem_singleton.mpr hqs) hqq
    · dsimp only
      exact decide_eq_false hts
  have hspec := bfsLoop_spec g s t hs hst
    (([s] : List Pos).length + unvisitedCount (fun p => decide (p = s)))
    ⟨fun p => decide (p = s), fun _ => none, [s]⟩ (fun _ => 0) 0 (le_refl _) L0
  rw [← heval] at hspec
  constructor
  · intro hnr
    cases hres : findPath g s t with
    | none => rfl
    | some path =>
      obtain ⟨hlast, hchain, -, hmemb, -, -⟩ := hspec.2 path hres
      exact absurd ⟨path, hchain,
        fun p hp => ⟨(hmemb p hp).1, Or.inl (hmemb p hp).2⟩, hlast⟩ hnr
  · intro l₀ hl₀
    cases hres : findPath g s t with
    | none =>
      exact absurd (isPathTo_steps l₀ t hl₀) (hspec.1 hres l₀.length)
    | some path =>
      obtain ⟨hlast, hchain, hsnot, hmemb, hnd, hmin⟩ := hspec.2 path hres
      refine ⟨path, rfl, hlast, hsnot, hchain, hmemb, hnd, ?_, ?_⟩
      · exact ⟨hchain, fun p hp => ⟨(hmemb p hp).1, Or.inl (hmemb p hp).2⟩, hlast⟩
      · intro l hl
        exact hmin.2 l.length (isPathTo_steps l t hl)

/-- Witness for C1: source `(4,4)` holding color `0`, destination
`(4,6)` two cells to the right on an otherwise empty board, reachable
via `[(4,5), (4,6)]`. -/
theorem findPath_spec_witness :
    ∃ path, findPath (updateCell createEmptyGrid (4, 4) 0) (4, 4) (4, 6) = some path ∧
      path.getLast? = some ((4 : Int), (6 : Int)) ∧ ((4 : Int), (4 : Int)) ∉ path ∧
      List.Chain (fun a b => b ∈ neighbors a) (4, 4) path ∧
      (∀ x ∈ path, isValidCell x = true ∧
        updateCell createEmptyGrid (4, 4) 0 x = EMPTY_COLOR) ∧
      path.Nodup ∧ isPathTo (updateCell createEmptyGrid (4, 4) 0) (4, 4) path (4, 6) ∧
      (∀ l, isPathTo (updateCell createEmptyGrid (4, 4) 0) (4, 4) l (4, 6) →
        path.length ≤ l.length) :=
  (findPath_spec (updateCell createEmptyGrid (4, 4) 0) (4, 4) (4, 6)
    (by decide) (by decide) (by decide) (by decide) (by decide)).2
    [(4, 5), (4, 6)]
    ⟨List.Chain.cons (by decide) (List.Chain.cons (by decide) List.Chain.nil),
      by decide, by decide⟩

/-! ### Match detection (`collectGroupForBase`, `checkLines`)

`enqueueNeighbors` is the inner `for (const next of neighbors(current))`
loop of `collectGroupForBase`; `collectLoop` is its `while` loop. The
per-color visited grids of `checkLines` become a function from base
color to visited grid, updated at the scanned color. -/

def enqueueNeighbors (g : Grid) (baseColor : Int) :
    (Pos → Bool) → List Pos → List Pos → (Pos → Bool) × List Pos
  | visited, queue, [] => (visited, queue)
  | visited, queue, n :: ns =>
    if visited n = true then enqueueNeighbors g baseColor visited queue ns
    else if g n ≠ baseColor ∧ g n ≠ JOKER_COLOR then
      enqueueNeighbors g baseColor visited queue ns
    else
      enqueueNeighbors g baseColor (fun p => if p = n then true else visited p)
        (queue ++ [n]) ns

theorem enqueueNeighbors_measure (g : Grid) (baseColor : Int) :
    ∀ (ns : List Pos) (visited : Pos → Bool) (queue : List Pos),
      (∀ n ∈ ns, isValidCell n = true) →
      (enqueueNeighbors g baseColor visited queue ns).2.length +
          unvisitedCount (enqueueNeighbors g baseColor visited queue ns).1 =
        queue.length + unvisitedCount visited := by
  intro ns
  induction ns with
  | nil =>
    intro visited queue _
    rfl
  | cons n ns ih =>
    intro visited queue hval
    have hval' : ∀ m ∈ ns, isValidCell m = true :=
      fun m hm => hval m (List.mem_cons_of_mem _ hm)
    simp only [enqueueNeighbors]
    by_cases hv : visited n = true
    · rw [if_pos hv]
      exact ih visited queue hval'
    · rw [if_neg hv]
      by_cases hskip : g n ≠ baseColor ∧ g n ≠ JOKER_COLOR
      · rw [if_pos hskip]
        exact ih visited queue hval'
      · rw [if_neg hskip]
        rw [ih _ _ hval']
        simp only [List.length_append, List.length_singleton]
        have hcount : unvisitedCount visited =
            unvisitedCount (fun p => if p = n then true else visited p) + 1 := by
          unfold unvisitedCount
          refine length_filter_update getAllValidPositions_nodup
            (mem_getAllValidPositions.mpr (hval n (List.mem_cons_self _ _)))
            _ _ (fun q hq => ?_) ?_ ?_
          · simp [hq]
          · simp
          · simp only [Bool.not_eq_true] at hv
            simp [hv]
        omega

def collectLoop (g : Grid) (baseColor : Int) (visited : Pos → Bool) (queue : List Pos)
    (group : List Pos) (cnt : Nat) : List Pos × Nat × (Pos → Bool) :=
  match hq : queue with
  | [] => (group, cnt, visited)
  | cur :: rest =>
    let res := enqueueNeighbors g baseColor visited rest (neighbors cur)
    collectLoop g baseColor res.1 res.2 (group ++ [cur])
      (if g cur = baseColor then cnt + 1 else cnt)
  termination_by queue.length + unvisitedCount visited
  decreasing_by
    have hm := enqueueNeighbors_measure g baseColor (neighbors cur) visited rest
      (fun n hn => mem_neighbors_valid hn)
    simp only [List.length_cons]
    omega

/-- `collectGroupForBase` from the source: mark the start visited,
then flood-fill; returns the group, the count of seed-colored cells,
and the updated visited grid. -/
def collectGroupForBase (g : Grid) (start : Pos) (baseColor : Int)
    (visited : Pos → Bool) : List Pos × Nat × (Pos → Bool) :=
  collectLoop g baseColor (fun p => if p = start then true else visited p) [start] [] 0

/-- The running state of the `checkLines` scan. -/
structure LinesState where
  toRemove : List Pos
  lineCount : Nat
  visitedByBase : Int → Pos → Bool

/-- Adding a group to the removal set (`Set.add` with an `addedAny`
flag), preserving insertion order. -/
def addGroup (toRemove : List Pos) (group : List Pos) : List Pos × Bool :=
  group.foldl (fun acc p => if p ∈ acc.1 then acc else (acc.1 ++ [p], true))
    (toRemove, false)

/-- One iteration of the position scan of `checkLines`. -/
def checkLinesStep (g : Grid) (st : LinesState) (pos : Pos) : LinesState :=
  let color := g pos
  if color < 0 ∨ color = JOKER_COLOR then st
  else if st.visitedByBase color pos = true then st
  else
    let res := collectGroupForBase g pos color (st.visitedByBase color)
    let st' : LinesState := { st with
      visitedByBase := fun c => if c = color then res.2.2 else st.visitedByBase c }
    if MIN_MATCH ≤ res.1.length ∧ 0 < res.2.1 then
      let ar := addGroup st.toRemove res.1
      { st' with
        toRemove := ar.1
        lineCount := st.lineCount + if ar.2 then 1 else 0 }
    else st'

/-- The joker-counting loop over the removal set. -/
def countJokers (g : Grid) : List Pos → Nat → Nat
  | [], acc => acc
  | p :: ps, acc => countJokers g ps (if g p = JOKER_COLOR then acc + 1 else acc)

structure CheckResult where
  toRemove : List Pos
  score : Nat
  lineCount : Nat
  jokerRemoved : Nat
deriving DecidableEq

/-- `checkLines` from the source. -/
def checkLines (g : Grid) : CheckResult :=
  let st := getAllValidPositions.foldl (checkLinesStep g) ⟨[], 0, fun _ _ => false⟩
  let jokerRemoved := countJokers g st.toRemove 0
  let baseScore := st.toRemove.length * 2
  let lengthBonus := (st.toRemove.length - MIN_MATCH) * 2
  let multiLineBonus := if 1 < st.lineCount then (st.lineCount - 1) * 6 else 0
  let jokerBonus := jokerRemoved * 2
  { toRemove := st.toRemove
    score := if 0 < st.toRemove.length then
        baseScore + lengthBonus + multiLineBonus + jokerBonus
      else 0
    lineCount := st.lineCount
    jokerRemoved := jokerRemoved }

/-- A cell the flood fill for base color `b` may stand on. -/
def okCell (g : Grid) (b : Int) (p : Pos) : Prop :=
  isValidCell p = true ∧ (g p = b ∨ g p = JOKER_COLOR)

theorem enqueueNeighbors_spec (g : Grid) (b : Int) :
    ∀ (ns : List Pos) (visited : Pos → Bool) (queue : List Pos),
      (∀ n ∈ ns, isValidCell n = true) →
      ∃ news,
        (enqueueNeighbors g b visited queue ns).2 = queue ++ news ∧
        (∀ p, (enqueueNeighbors g b visited queue ns).1 p = true ↔
          (p ∈ news ∨ visited p = true)) ∧
        (∀ p ∈ news, p ∈ ns ∧ okCell g b p ∧ visited p = false) ∧
        news.Nodup ∧
        (∀ n ∈ ns, (g n = b ∨ g n = JOKER_COLOR) →
          (enqueueNeighbors g b visited queue ns).1 n = true) := by
  intro ns
  induction ns with
  | nil =>
    intro visited queue _
    refine ⟨[], by simp [enqueueNeighbors], ?_, ?_, List.nodup_nil, ?_⟩
    · intro p
      simp [enqueueNeighbors]
    · intro p hp
      cases hp
    · intro n hn
      cases hn
  | cons n ns ih =>
    intro visited queue hval
    have hval' : ∀ m ∈ ns, isValidCell m = true :=
      fun m hm => hval m (List.mem_cons_of_mem _ hm)
    simp only [enqueueNeighbors]
    by_cases hv : visited n = true
    · rw [if_pos hv]
      obtain ⟨news, hq, hiff, hmem, hnd, hlast⟩ := ih visited queue hval'
      refine ⟨news, hq, hiff, ?_, hnd, ?_⟩
      · intro p hp
        obtain ⟨h1, h2, h3⟩ := hmem p hp
        exact ⟨List.mem_cons_of_mem _ h1, h2, h3⟩
      · intro m hm hcol
        rcases List.mem_cons.mp hm with rfl | hm'
        · exact (hiff m).mpr (Or.inr hv)
        · exact hlast m hm' hcol
    · rw [if_neg hv]
      have hvfalse : visited n = false := by
        cases h : visited n
        · rfl
        · exact absurd h hv
      by_cases hskip : g n ≠ b ∧ g n ≠ JOKER_COLOR
      · rw [if_pos hskip]
        obtain ⟨news, hq, hiff, hmem, hnd, hlast⟩ := ih visited queue hval'
        refine ⟨news, hq, hiff, ?_, hnd, ?_⟩
        · intro p hp
          obtain ⟨h1, h2, h3⟩ := hmem p hp
          exact ⟨List.mem_cons_of_mem _ h1, h2, h3⟩
        · intro m hm hcol
          rcases List.mem_cons.mp hm with rfl | hm'
          · rcases hcol with h | h
            · exact absurd h hskip.1
            · exact absurd h hskip.2
          · exact hlast m hm' hcol
      · rw [if_neg hskip]
        have hcol : g n = b ∨ g n = JOKER_COLOR := by
          rcases Decidable.not_and_iff_or_not.mp hskip with h | h
          · exact Or.inl (not_not.mp h)
          · exact Or.inr (not_not.mp h)
        obtain ⟨news', hq, hiff, hmem, hnd, hlast⟩ :=
          ih (fun p => if p = n then true else visited p) (queue ++ [n]) hval'
        refine ⟨n :: news', ?_, ?_, ?_, ?_, ?_⟩
        · rw [hq, List.append_assoc]
          rfl
        · intro p
          rw [hiff p]
          constructor
          · rintro (hp | hp)
            · exact Or.inl (List.mem_cons_of_mem _ hp)
            · by_cases hpn : p = n
              · exact Or.inl (hpn ▸ List.mem_cons_self _ _)
              · rw [if_neg hpn] at hp
                exact Or.inr hp
          · rintro (hp | hp)
            · rcases List.mem_cons.mp hp with rfl | hp'
              · exact Or.inr (by rw [if_pos rfl])
              · exact Or.inl hp'
            · exact Or.inr (by
                by_cases hpn : p = n
                · rw [if_pos hpn]
                · rw [if_neg hpn]
                  exact hp)
        · intro p hp
          rcases List.mem_cons.mp hp with rfl | hp'
          · exact ⟨List.mem_cons_self _ _,
              ⟨hval p (List.mem_cons_self _ _), hcol⟩, hvfalse⟩
          · obtain ⟨h1, h2, h3⟩ := hmem p hp'
            have hpn : p ≠ n := by
              intro h
              rw [if_pos h] at h3
              cases h3
            rw [if_neg hpn] at h3
            exact ⟨List.mem_cons_of_mem _ h1, h2, h3⟩
        · rw [List.nodup_cons]
          refine ⟨?_, hnd⟩
          intro hmemn
          have := (hmem n hmemn).2.2
          rw [if_pos rfl] at this
          cases this
        · intro m hm hcolm
          rcases List.mem_cons.mp hm with rfl | hm'
          · exact (hiff m).mpr (Or.inr (by rw [if_pos rfl]))
          · exact hlast m hm' hcolm

theorem collectLoop_nil (g : Grid) (b : Int) (visited : Pos → Bool)
    (group : List Pos) (cnt : Nat) :
    collectLoop g b visited [] group cnt = (group, cnt, visited) := by
  rw [collectLoop.eq_def]

theorem collectLoop_cons (g : Grid) (b : Int) (visited : Pos → Bool)
    (cur : Pos) (rest group : List Pos) (cnt : Nat) :
    collectLoop g b visited (cur :: rest) group cnt =
      collectLoop g b (enqueueNeighbors g b visited rest (neighbors cur)).1
        (enqueueNeighbors g b visited rest (neighbors cur)).2 (group ++ [cur])
        (if g cur = b then cnt + 1 else cnt) := by
  rw [collectLoop.eq_def]

theorem collectLoop_spec (g : Grid) (b : Int) (v₀ : Pos → Bool) :
    ∀ (N : Nat) (visited : Pos → Bool) (queue group : List Pos) (cnt : Nat),
      queue.length + unvisitedCount visited ≤ N →
      (∀ p, visited p = true ↔ (p ∈ queue ∨ p ∈ group ∨ v₀ p = true)) →
      (∀ p ∈ queue, okCell g b p) →
      (∀ p ∈ group, okCell g b p) →
      (group ++ queue).Nodup →
      (∀ p ∈ group, ∀ n ∈ neighbors p, okCell g b n → visited n = true) →
      (∀ p, (collectLoop g b visited queue group cnt).2.2 p = true ↔
        (p ∈ (collectLoop g b visited queue group cnt).1 ∨ v₀ p = true)) ∧
      (collectLoop g b visited queue group cnt).1.Nodup ∧
      (∀ p ∈ (collectLoop g b visited queue group cnt).1, okCell g b p) ∧
      (∀ p ∈ (collectLoop g b visited queue group cnt).1, ∀ n ∈ neighbors p,
        okCell g b n → (n ∈ (collectLoop g b visited queue group cnt).1 ∨ v₀ n = true)) ∧
      (∀ p ∈ queue, p ∈ (collectLoop g b visited queue group cnt).1) ∧
      (∃ d, (collectLoop g b visited queue group cnt).1 = group ++ d ∧
        (collectLoop g b visited queue group cnt).2.1 =
          cnt + (d.filter fun p => decide (g p = b)).length) := by
  intro N
  induction N with
  | zero =>
    intro visited queue group cnt hN hvis hqok hgok hnd hclosed
    have hqnil : queue = [] := List.length_eq_zero.mp (by omega)
    subst hqnil
    rw [collectLoop_nil]
    refine ⟨?_, ?_, hgok, ?_, ?_, [], by simp⟩
    · intro p
      rw [hvis p]
      simp
    · have := hnd
      rw [List.append_nil] at this
      exact this
    · intro p hp n hn hok
      have := hclosed p hp n hn hok
      rw [hvis n] at this
      simpa using this
    · intro p hp
      cases hp
  | succ N ih =>
    intro visited queue group cnt hN hvis hqok hgok hnd hclosed
    rcases queue with _ | ⟨cur, rest⟩
    · rw [collectLoop_nil]
      refine ⟨?_, ?_, hgok, ?_, ?_, [], by simp⟩
      · intro p
        rw [hvis p]
        simp
      · have := hnd
        rw [List.append_nil] at this
        exact this
      · intro p hp n hn hok
        have := hclosed p hp n hn hok
        rw [hvis n] at this
        simpa using this
      · intro p hp
        cases hp
    · rw [collectLoop_cons]
      obtain ⟨news, hq2, hiff, hmemnews, hndnews, hlast⟩ :=
        enqueueNeighbors_spec g b (neighbors cur) visited rest
          (fun n hn => mem_neighbors_valid hn)
      have hcurok : okCell g b cur := hqok cur (List.mem_cons_self _ _)
      have hcurvis : visited cur = true :=
        (hvis cur).mpr (Or.inl (List.mem_cons_self _ _))
      have hmeas := enqueueNeighbors_measure g b (neighbors cur) visited rest
        (fun n hn => mem_neighbors_valid hn)
      have hnewsfresh : ∀ p ∈ news, p ∉ cur :: rest ∧ p ∉ group ∧ v₀ p ≠ true := by
        intro p hp
        have hunvis := (hmemnews p hp).2.2
        constructor
        · intro hmem
          rw [(hvis p).mpr (Or.inl hmem)] at hunvis
          cases hunvis
        constructor
        · intro hmem
          rw [(hvis p).mpr (Or.inr (Or.inl hmem))] at hunvis
          cases hunvis
        · intro hmem
          rw [(hvis p).mpr (Or.inr (Or.inr hmem))] at hunvis
          cases hunvis
      have hndfull : ((group ++ [cur]) ++ (rest ++ news)).Nodup := by
        have h0 : (group ++ cur :: rest).Nodup := hnd
        rw [List.nodup_append] at h0
        obtain ⟨hgnd, hcrnd, hdisj⟩ := h0
        have hcurnotrest : cur ∉ rest := (List.nodup_cons.mp hcrnd).1
        have hrestnd : rest.Nodup := (List.nodup_cons.mp hcrnd).2
        rw [List.nodup_append]
        refine ⟨?_, ?_, ?_⟩
        · rw [List.nodup_append]
          refine ⟨hgnd, List.nodup_singleton cur, ?_⟩
          intro x hx hx2
          rw [List.mem_singleton] at hx2
          subst hx2
          exact hdisj hx (List.mem_cons_self _ _)
        · rw [List.nodup_append]
          refine ⟨hrestnd, hndnews, ?_⟩
          intro x hx hx2
          exact ((hnewsfresh x hx2).1) (List.mem_cons_of_mem _ hx)
        · intro x hx hx2
          rcases List.mem_append.mp hx with hx | hx
          · rcases List.mem_append.mp hx2 with hx2 | hx2
            · exact hdisj hx (List.mem_cons_of_mem _ hx2)
            · exact (hnewsfresh x hx2).2.1 hx
          · rw [List.mem_singleton] at hx
            subst hx
            rcases List.mem_append.mp hx2 with hx2 | hx2
            · exact hcurnotrest hx2
            · exact (hnewsfresh x hx2).1 (List.mem_cons_self _ _)
      have hres := ih (enqueueNeighbors g b visited rest (neighbors cur)).1
        (enqueueNeighbors g b visited rest (neighbors cur)).2 (group ++ [cur])
        (if g cur = b then cnt + 1 else cnt)
        (by
          rw [hmeas]
          simp only [List.length_cons] at hN
          omega)
        (by
          intro p
          rw [hiff p, hvis p, hq2]
          constructor
          · rintro (hp | hp)
            · exact Or.inl (List.mem_append_right _ hp)
            · rcases hp with hp | hp | hp
              · rcases List.mem_cons.mp hp with rfl | hp'
                · exact Or.inr (Or.inl (List.mem_append_right _ (List.mem_singleton_self _)))
                · exact Or.inl (List.mem_append_left _ hp')
              · exact Or.inr (Or.inl (List.mem_append_left _ hp))
              · exact Or.inr (Or.inr hp)
          · rintro (hp | hp | hp)
            · rcases List.mem_append.mp hp with hp' | hp'
              · exact Or.inr (Or.inl (List.mem_cons_of_mem _ hp'))
              · exact Or.inl hp'
            · rcases List.mem_append.mp hp with hp' | hp'
              · exact Or.inr (Or.inr (Or.inl hp'))
              · rw [List.mem_singleton] at hp'
                subst hp'
                exact Or.inr (Or.inl (List.mem_cons_self _ _))
            · exact Or.inr (Or.inr (Or.inr hp)))
        (by
          intro p hp
          rw [hq2] at hp
          rcases List.mem_append.mp hp with hp | hp
          · exact hqok p (List.mem_cons_of_mem _ hp)
          · exact (hmemnews p hp).2.1)
        (by
          intro p hp
          rcases List.mem_append.mp hp with hp | hp
          · exact hgok p hp
          · rw [List.mem_singleton] at hp
            subst hp
            exact hcurok)
        (by
          rw [hq2]
          exact hndfull)
        (by
          intro p hp n hn hok
          rcases List.mem_append.mp hp with hp | hp
          · have := hclosed p hp n hn hok
            exact (hiff n).mpr (Or.inr this)
          · rw [List.mem_singleton] at hp
            subst hp
            exact hlast n hn hok.2)
      obtain ⟨riff, rnd, rok, rclosed, rqueue, d, hd, hcnt⟩ := hres
      refine ⟨riff, rnd, rok, rclosed, ?_, ?_⟩
      · intro p hp
        rcases List.mem_cons.mp hp with rfl | hp'
        · rw [hd]
          exact List.mem_append_left _ (List.mem_append_right _ (List.mem_singleton_self _))
        · refine rqueue p ?_
          rw [hq2]
          exact List.mem_append_left _ hp'
      · refine ⟨[cur] ++ d, by rw [hd, List.append_assoc], ?_⟩
        rw [hcnt]
        by_cases hc : g cur = b
        · rw [if_pos hc]
          have : (([cur] ++ d).filter fun p => decide (g p = b)).length =
              (d.filter fun p => decide (g p = b)).length + 1 := by
            simp [List.filter_append, List.filter_singleton, hc]
          omega
        · rw [if_neg hc]
          have : (([cur] ++ d).filter fun p => decide (g p = b)).length =
              (d.filter fun p => decide (g p = b)).length := by
            simp [List.filter_append, List.filter_singleton, hc]
          omega

theorem collectGroupForBase_spec (g : Grid) (start : Pos) (b : Int) (v₀ : Pos → Bool)
    (hstart : okCell g b start) :
    (∀ p, (collectGroupForBase g start b v₀).2.2 p = true ↔
      (p ∈ (collectGroupForBase g start b v₀).1 ∨ v₀ p = true)) ∧
    (collectGroupForBase g start b v₀).1.Nodup ∧
    (∀ p ∈ (collectGroupForBase g start b v₀).1, okCell g b p) ∧
    (∀ p ∈ (collectGroupForBase g start b v₀).1, ∀ n ∈ neighbors p,
      okCell g b n → (n ∈ (collectGroupForBase g start b v₀).1 ∨ v₀ n = true)) ∧
    start ∈ (collectGroupForBase g start b v₀).1 ∧
    (collectGroupForBase g start b v₀).2.1 =
      ((collectGroupForBase g start b v₀).1.filter fun p => decide (g p = b)).length := by
  have hres := collectLoop_spec g b v₀
    (([start] : List Pos).length +
      unvisitedCount (fun p => if p = start then true else v₀ p))
    (fun p => if p = start then true else v₀ p) [start] [] 0 (le_refl _)
    (by
      intro p
      by_cases hps : p = start
      · subst hps
        simp
      · dsimp only
        rw [if_neg hps]
        simp [hps])
    (by
      intro p hp
      rw [List.mem_singleton] at hp
      subst hp
      exact hstart)
    (by
      intro p hp
      cases hp)
    (by simp)
    (by
      intro p hp
      cases hp)
  obtain ⟨riff, rnd, rok, rclosed, rqueue, d, hd, hcnt⟩ := hres
  refine ⟨riff, rnd, rok, rclosed, rqueue start (List.mem_singleton_self _), ?_⟩
  show (collectLoop g b (fun p => if p = start then true else v₀ p) [start] [] 0).2.1 =
    ((collectLoop g b (fun p => if p = start then true else v₀ p)
      [start] [] 0).1.filter fun p => decide (g p = b)).length
  rw [List.nil_append] at hd
  rw [hcnt, hd]
  omega

theorem addGroup_go_spec :
    ∀ (group tr : List Pos) (fl : Bool),
      (∀ x, x ∈ (group.foldl
          (fun acc p => if p ∈ acc.1 then acc else (acc.1 ++ [p], true)) (tr, fl)).1 ↔
        (x ∈ tr ∨ x ∈ group)) ∧
      (tr.Nodup → (group.foldl
          (fun acc p => if p ∈ acc.1 then acc else (acc.1 ++ [p], true)) (tr, fl)).1.Nodup) ∧
      ((group.foldl
          (fun acc p => if p ∈ acc.1 then acc else (acc.1 ++ [p], true)) (tr, fl)).2 = true ↔
        (fl = true ∨ ∃ x ∈ group, x ∉ tr)) := by
  intro group
  induction group with
  | nil =>
    intro tr fl
    refine ⟨fun x => by simp, fun h => h, ?_⟩
    simp
  | cons p rest ih =>
    intro tr fl
    simp only [List.foldl_cons]
    by_cases hp : p ∈ tr
    · rw [if_pos hp]
      obtain ⟨h1, h2, h3⟩ := ih tr fl
      refine ⟨?_, h2, ?_⟩
      · intro x
        rw [h1 x]
        constructor
        · rintro (hx | hx)
          · exact Or.inl hx
          · exact Or.inr (List.mem_cons_of_mem _ hx)
        · rintro (hx | hx)
          · exact Or.inl hx
          · rcases List.mem_cons.mp hx with rfl | hx'
            · exact Or.inl hp
            · exact Or.inr hx'
      · rw [h3]
        constructor
        · rintro (h | ⟨x, hx1, hx2⟩)
          · exact Or.inl h
          · exact Or.inr ⟨x, List.mem_cons_of_mem _ hx1, hx2⟩
        · rintro (h | ⟨x, hx1, hx2⟩)
          · exact Or.inl h
          · rcases List.mem_cons.mp hx1 with rfl | hx'
            · exact absurd hp hx2
            · exact Or.inr ⟨x, hx', hx2⟩
    · rw [if_neg hp]
      obtain ⟨h1, h2, h3⟩ := ih (tr ++ [p]) true
      refine ⟨?_, ?_, ?_⟩
      · intro x
        rw [h1 x]
        constructor
        · rintro (hx | hx)
          · rcases List.mem_append.mp hx with hx' | hx'
            · exact Or.inl hx'
            · rw [List.mem_singleton] at hx'
              exact Or.inr (hx' ▸ List.mem_cons_self _ _)
          · exact Or.inr (List.mem_cons_of_mem _ hx)
        · rintro (hx | hx)
          · exact Or.inl (List.mem_append_left _ hx)
          · rcases List.mem_cons.mp hx with rfl | hx'
            · exact Or.inl (List.mem_append_right _ (List.mem_singleton_self _))
            · exact Or.inr hx'
      · intro hnd
        refine h2 ?_
        rw [List.nodup_append]
        refine ⟨hnd, List.nodup_singleton p, ?_⟩
        intro x hx hx2
        rw [List.mem_singleton] at hx2
        subst hx2
        exact hp hx
      · rw [h3]
        constructor
        · intro _
          exact Or.inr ⟨p, List.mem_cons_self _ _, hp⟩
        · intro _
          exact Or.inl rfl

theorem addGroup_mem (tr group : List Pos) :
    ∀ x, x ∈ (addGroup tr group).1 ↔ (x ∈ tr ∨ x ∈ group) :=
  (addGroup_go_spec group tr false).1

theorem addGroup_nodup (tr group : List Pos) (h : tr.Nodup) :
    (addGroup tr group).1.Nodup :=
  (addGroup_go_spec group tr false).2.1 h

theorem addGroup_flag (tr group : List Pos) :
    (addGroup tr group).2 = true ↔ ∃ x ∈ group, x ∉ tr := by
  rw [addGroup, (addGroup_go_spec group tr false).2.2]
  simp

theorem checkLinesStep_toRemove_ok (g : Grid) (st : LinesState) (p : Pos)
    (hp : isValidCell p = true)
    (hinv : ∀ q ∈ st.toRemove, isValidCell q = true ∧ 0 ≤ g q) :
    ∀ q ∈ (checkLinesStep g st p).toRemove, isValidCell q = true ∧ 0 ≤ g q := by
  intro q hq
  unfold checkLinesStep at hq
  dsimp only at hq
  by_cases h1 : g p < 0 ∨ g p = JOKER_COLOR
  · rw [if_pos h1] at hq
    exact hinv q hq
  · rw [if_neg h1] at hq
    by_cases h2 : st.visitedByBase (g p) p = true
    · rw [if_pos h2] at hq
      exact hinv q hq
    · rw [if_neg h2] at hq
      by_cases h3 : MIN_MATCH ≤ (collectGroupForBase g p (g p)
            (st.visitedByBase (g p))).1.length ∧
          0 < (collectGroupForBase g p (g p) (st.visitedByBase (g p))).2.1
      · rw [if_pos h3] at hq
        dsimp only at hq
        rw [addGroup_mem] at hq
        rcases hq with hq | hq
        · exact hinv q hq
        · have hok := (collectGroupForBase_spec g p (g p) (st.visitedByBase (g p))
            ⟨hp, Or.inl rfl⟩).2.2.1 q hq
          refine ⟨hok.1, ?_⟩
          rcases hok.2 with h | h
          · push_neg at h1
            omega
          · rw [h]
            decide
      · rw [if_neg h3] at hq
        exact hinv q hq

theorem scan_toRemove_ok (g : Grid) :
    ∀ (l : List Pos) (st : LinesState),
      (∀ p ∈ l, isValidCell p = true) →
      (∀ q ∈ st.toRemove, isValidCell q = true ∧ 0 ≤ g q) →
      ∀ q ∈ (l.foldl (checkLinesStep g) st).toRemove,
        isValidCell q = true ∧ 0 ≤ g q := by
  intro l
  induction l with
  | nil =>
    intro st _ hinv
    exact hinv
  | cons p rest ih =>
    intro st hval hinv
    simp only [List.foldl_cons]
    exact ih _ (fun x hx => hval x (List.mem_cons_of_mem _ hx))
      (checkLinesStep_toRemove_ok g st p (hval p (List.mem_cons_self _ _)) hinv)

/-- C10: on a well-formed grid, every position of the removal set
computed by `checkLines` is a valid cell holding a color or the joker
(value `≥ 0`); `EMPTY` and `BLOCKED` cells never appear in it, so
`removeMatches` on a `checkLines` removal set never writes to a
`BLOCKED` or already-`EMPTY` cell. -/
theorem checkLines_removal_occupied (g : Grid)
    (hwf : ∀ p : Pos, (isValidCell p = false → g p = BLOCKED_COLOR) ∧
      (isValidCell p = true → g p = EMPTY_COLOR ∨ (0 ≤ g p ∧ g p ≤ JOKER_COLOR))) :
    ∀ q ∈ (checkLines g).toRemove, isValidCell q = true ∧ 0 ≤ g q ∧
      g q ≠ EMPTY_COLOR ∧ g q ≠ BLOCKED_COLOR := by
  intro q hq
  have hq' : q ∈ (getAllValidPositions.foldl (checkLinesStep g)
      ⟨[], 0, fun _ _ => false⟩).toRemove := hq
  obtain ⟨hv, hge⟩ := scan_toRemove_ok g getAllValidPositions ⟨[], 0, fun _ _ => false⟩
    (fun p hp => mem_getAllValidPositions.mp hp)
    (fun p hp => absurd hp (List.not_mem_nil p)) q hq'
  refine ⟨hv, hge, ?_, ?_⟩
  · intro h
    rw [h] at hge
    exact absurd hge (by decide)
  · intro h
    rw [h] at hge
    exact absurd hge (by decide)

/-- A well-formed grid holding a straight run of five cells of color
`2` in row `4`, used to witness C10. -/
def wfGrid5 : Grid := fun p =>
  if p ∈ ([(4, 2), (4, 3), (4, 4), (4, 5), (4, 6)] : List Pos) then 2
  else if isValidCell p = true then EMPTY_COLOR else BLOCKED_COLOR

theorem wfGrid5_wf : ∀ p : Pos, (isValidCell p = false → wfGrid5 p = BLOCKED_COLOR) ∧
    (isValidCell p = true → wfGrid5 p = EMPTY_COLOR ∨
      (0 ≤ wfGrid5 p ∧ wfGrid5 p ≤ JOKER_COLOR)) := by
  intro p
  constructor
  · intro hinv
    have hmem : p ∉ ([(4, 2), (4, 3), (4, 4), (4, 5), (4, 6)] : List Pos) := by
      intro hmem
      have hval : isValidCell p = true := by
        simp only [List.mem_cons, List.not_mem_nil, or_false] at hmem
        rcases hmem with rfl | rfl | rfl | rfl | rfl <;> decide
      rw [hval] at hinv
      cases hinv
    rw [wfGrid5, if_neg hmem, if_neg (by rw [hinv]; intro h; cases h)]
  · intro hval
    by_cases hmem : p ∈ ([(4, 2), (4, 3), (4, 4), (4, 5), (4, 6)] : List Pos)
    · rw [wfGrid5, if_pos hmem]
      exact Or.inr (by constructor <;> decide)
    · rw [wfGrid5, if_neg hmem, if_pos hval]
      exact Or.inl rfl

/-! ### C4: a straight run of five same-colored cells -/

def addDir (p : Pos) (d : Int × Int) : Pos := (p.1 + d.2, p.2 + d.1)

def runCell (r0 : Pos) (d : Int × Int) : Nat → Pos
  | 0 => r0
  | n + 1 => addDir (runCell r0 d n) d

/-- The five cells of a straight run starting at `r0` along hex
direction `d`. -/
def runList (r0 : Pos) (d : Int × Int) : List Pos :=
  [runCell r0 d 0, runCell r0 d 1, runCell r0 d 2, runCell r0 d 3, runCell r0 d 4]

theorem runList_nodup (r0 : Pos) (d : Int × Int) (hd : d ∈ HEX_DIRS) :
    (runList r0 d).Nodup := by
  obtain ⟨x, y⟩ := r0
  fin_cases hd <;> simp [runList, runCell, addDir, Prod.ext_iff] <;> omega

theorem length_eq_of_nodup_mem_iff {l1 l2 : List Pos} (h1 : l1.Nodup) (h2 : l2.Nodup)
    (hiff : ∀ x, x ∈ l1 ↔ x ∈ l2) : l1.length = l2.length :=
  Nat.le_antisymm (h1.subperm fun x hx => (hiff x).mp hx).length_le
    (h2.subperm fun x hx => (hiff x).mpr hx).length_le

theorem countJokers_eq_acc (g : Grid) :
    ∀ (l : List Pos) (acc : Nat), (∀ p ∈ l, g p ≠ JOKER_COLOR) →
      countJokers g l acc = acc := by
  intro l
  induction l with
  | nil =>
    intro acc _
    rfl
  | cons p rest ih =>
    intro acc hl
    simp only [countJokers]
    rw [if_neg (hl p (List.mem_cons_self _ _))]
    exact ih acc fun q hq => hl q (List.mem_cons_of_mem _ hq)

theorem run_collect (g : Grid) (c : Int) (d : Int × Int) (r0 : Pos)
    (hd : d ∈ HEX_DIRS) (hc : 0 ≤ c ∧ c < NUM_COLORS)
    (hvalid : ∀ r ∈ runList r0 d, isValidCell r = true)
    (hg : ∀ p : Pos, isValidCell p = true →
      g p = if p ∈ runList r0 d then c else EMPTY_COLOR)
    (x : Pos) (hx : x ∈ runList r0 d) :
    (∀ q, q ∈ (collectGroupForBase g x c fun _ => false).1 ↔ q ∈ runList r0 d) ∧
    (collectGroupForBase g x c fun _ => false).1.Nodup ∧
    (collectGroupForBase g x c fun _ => false).1.length = 5 ∧
    (collectGroupForBase g x c fun _ => false).2.1 = 5 ∧
    (∀ q ∈ runList r0 d, (collectGroupForBase g x c fun _ => false).2.2 q = true) := by
  have hok_iff : ∀ p, okCell g c p ↔ p ∈ runList r0 d := by
    intro p
    constructor
    · rintro ⟨hv, hcol⟩
      by_contra hmem
      rw [hg p hv, if_neg hmem] at hcol
      rcases hcol with h | h
      · have h' : (-1 : Int) = c := h
        omega
      · exact absurd h (by decide)
    · intro hmem
      exact ⟨hvalid p hmem, Or.inl (by rw [hg p (hvalid p hmem), if_pos hmem])⟩
  obtain ⟨riff, rnd, rok, rclosed, rstart, rcnt⟩ :=
    collectGroupForBase_spec g x c (fun _ => false) ((hok_iff x).mpr hx)
  have hsub : ∀ q ∈ (collectGroupForBase g x c fun _ => false).1, q ∈ runList r0 d :=
    fun q hq => (hok_iff q).mp (rok q hq)
  have hstep : ∀ y ∈ (collectGroupForBase g x c fun _ => false).1,
      ∀ n ∈ neighbors y, n ∈ runList r0 d →
        n ∈ (collectGroupForBase g x c fun _ => false).1 := by
    intro y hy n hn hnR
    rcases rclosed y hy n hn ((hok_iff n).mpr hnR) with h | h
    · exact h
    · cases h
  have hmem : ∀ i, i < 5 → runCell r0 d i ∈ runList r0 d := by
    intro i hi
    interval_cases i <;> simp [runList]
  have hval : ∀ i, i < 5 → isValidCell (runCell r0 d i) = true :=
    fun i hi => hvalid _ (hmem i hi)
  have hadj : ∀ i, i < 4 → runCell r0 d (i + 1) ∈ neighbors (runCell r0 d i) := by
    intro i hi
    exact mem_neighbors_iff.mpr ⟨⟨d, hd, rfl⟩, hval (i + 1) (by omega)⟩
  have hadjr : ∀ i, i < 4 → runCell r0 d i ∈ neighbors (runCell r0 d (i + 1)) :=
    fun i hi => mem_neighbors_symm (hval i (by omega)) (hadj i hi)
  have hup : ∀ i, i < 4 → runCell r0 d i ∈ (collectGroupForBase g x c fun _ => false).1 →
      runCell r0 d (i + 1) ∈ (collectGroupForBase g x c fun _ => false).1 :=
    fun i hi hgi => hstep _ hgi _ (hadj i hi) (hmem (i + 1) (by omega))
  have hdown : ∀ i, i < 4 →
      runCell r0 d (i + 1) ∈ (collectGroupForBase g x c fun _ => false).1 →
      runCell r0 d i ∈ (collectGroupForBase g x c fun _ => false).1 :=
    fun i hi hgi => hstep _ hgi _ (hadjr i hi) (hmem i (by omega))
  have hall : ∀ i, i < 5 → runCell r0 d i ∈ (collectGroupForBase g x c fun _ => false).1 := by
    have hxcase : ∃ j, j < 5 ∧ x = runCell r0 d j := by
      simp only [runList, List.mem_cons, List.not_mem_nil, or_false] at hx
      rcases hx with h | h | h | h | h
      · exact ⟨0, by omega, h⟩
      · exact ⟨1, by omega, h⟩
      · exact ⟨2, by omega, h⟩
      · exact ⟨3, by omega, h⟩
      · exact ⟨4, by omega, h⟩
    obtain ⟨j, hj, hxj⟩ := hxcase
    have hj_mem : runCell r0 d j ∈ (collectGroupForBase g x c fun _ => false).1 :=
      hxj ▸ rstart
    have hupward : ∀ i, j ≤ i → i < 5 →
        runCell r0 d i ∈ (collectGroupForBase g x c fun _ => false).1 := by
      intro i
      induction i with
      | zero =>
        intro hji _
        have : j = 0 := by omega
        exact this ▸ hj_mem
      | succ i ih =>
        intro hji hi
        by_cases hcase : j = i + 1
        · exact hcase ▸ hj_mem
        · exact hup i (by omega) (ih (by omega) (by omega))
    have hdownward : ∀ i, i ≤ j →
        runCell r0 d i ∈ (collectGroupForBase g x c fun _ => false).1 := by
      have haux : ∀ k, ∀ i, i + k = j →
          runCell r0 d i ∈ (collectGroupForBase g x c fun _ => false).1 := by
        intro k
        induction k with
        | zero =>
          intro i hi
          have : i = j := by omega
          exact this ▸ hj_mem
        | succ k ih =>
          intro i hi
          exact hdown i (by omega) (ih (i + 1) (by omega))
      intro i hij
      exact haux (j - i) i (by omega)
    intro i hi
    by_cases hij : i ≤ j
    · exact hdownward i hij
    · exact hupward i (by omega) hi
  have hrun_sub : ∀ q ∈ runList r0 d, q ∈ (collectGroupForBase g x c fun _ => false).1 := by
    intro q hq
    simp only [runList, List.mem_cons, List.not_mem_nil, or_false] at hq
    rcases hq with h | h | h | h | h
    · exact h ▸ hall 0 (by omega)
    · exact h ▸ hall 1 (by omega)
    · exact h ▸ hall 2 (by omega)
    · exact h ▸ hall 3 (by omega)
    · exact h ▸ hall 4 (by omega)
  have hmemiff : ∀ q, q ∈ (collectGroupForBase g x c fun _ => false).1 ↔
      q ∈ runList r0 d := fun q => ⟨hsub q, hrun_sub q⟩
  have hlen : (collectGroupForBase g x c fun _ => false).1.length = 5 := by
    rw [length_eq_of_nodup_mem_iff rnd (runList_nodup r0 d hd) hmemiff]
    rfl
  refine ⟨hmemiff, rnd, hlen, ?_, ?_⟩
  · rw [rcnt]
    have hfilter : ((collectGroupForBase g x c fun _ => false).1.filter
        fun p => decide (g p = c)) = (collectGroupForBase g x c fun _ => false).1 := by
      rw [List.filter_eq_self]
      intro a ha
      have haR := hsub a ha
      rw [hg a (hvalid a haR), if_pos haR]
      exact decide_eq_true rfl
    rw [hfilter, hlen]
  · intro q hq
    exact (riff q).mpr (Or.inl (hrun_sub q hq))

/-- The scan state after the single run has been detected and cleared. -/
def runState (c : Int) (R : List Pos) (S : LinesState) : Prop :=
  (∀ q, q ∈ S.toRemove ↔ q ∈ R) ∧ S.toRemove.Nodup ∧ S.lineCount = 1 ∧
    ∀ q ∈ R, S.visitedByBase c q = true

theorem step_skip_empty (g : Grid) (p : Pos) (hpE : g p = EMPTY_COLOR) :
    ∀ S, checkLinesStep g S p = S := by
  intro S
  unfold checkLinesStep
  dsimp only
  rw [hpE]
  rw [if_pos (Or.inl (by decide))]

theorem step_skip_visited (g : Grid) (p : Pos) (c : Int) (S : LinesState)
    (hgx : g p = c) (hguard : ¬(c < 0 ∨ c = JOKER_COLOR))
    (hvis : S.visitedByBase c p = true) : checkLinesStep g S p = S := by
  unfold checkLinesStep
  dsimp only
  rw [hgx, if_neg hguard, if_pos hvis]

theorem run_fire (g : Grid) (c : Int) (d : Int × Int) (r0 : Pos)
    (hd : d ∈ HEX_DIRS) (hc : 0 ≤ c ∧ c < NUM_COLORS)
    (hvalid : ∀ r ∈ runList r0 d, isValidCell r = true)
    (hg : ∀ p : Pos, isValidCell p = true →
      g p = if p ∈ runList r0 d then c else EMPTY_COLOR)
    (x : Pos) (hx : x ∈ runList r0 d) :
    runState c (runList r0 d)
      (checkLinesStep g ⟨[], 0, fun _ _ => false⟩ x) := by
  obtain ⟨hmemiff, hnd, hlen, hcnt, hvis⟩ := run_collect g c d r0 hd hc hvalid hg x hx
  have hgx : g x = c := by rw [hg x (hvalid x hx), if_pos hx]
  have hguard : ¬(c < 0 ∨ c = JOKER_COLOR) := by
    intro h
    rcases h with h | h
    · omega
    · rw [h] at hc
      exact absurd hc.2 (by decide)
  unfold checkLinesStep
  dsimp only
  rw [hgx, if_neg hguard, if_neg (by simp)]
  rw [if_pos (by
    constructor
    · rw [hlen]
      decide
    · rw [hcnt]
      decide)]
  have hflag : (addGroup ([] : List Pos)
      (collectGroupForBase g x c fun _ => false).1).2 = true :=
    (addGroup_flag _ _).mpr ⟨x, (hmemiff x).mpr hx, List.not_mem_nil x⟩
  refine ⟨?_, ?_, ?_, ?_⟩
  · intro q
    dsimp only
    rw [addGroup_mem]
    rw [hmemiff q]
    simp
  · exact addGroup_nodup _ _ List.nodup_nil
  · dsimp only
    rw [hflag]
    decide
  · intro q hq
    dsimp only
    rw [if_pos rfl]
    exact hvis q hq

theorem run_absorb (g : Grid) (c : Int) (d : Int × Int) (r0 : Pos)
    (hc : 0 ≤ c ∧ c < NUM_COLORS)
    (hvalid : ∀ r ∈ runList r0 d, isValidCell r = true)
    (hg : ∀ p : Pos, isValidCell p = true →
      g p = if p ∈ runList r0 d then c else EMPTY_COLOR) :
    ∀ (l : List Pos) (S : LinesState), (∀ p ∈ l, isValidCell p = true) →
      runState c (runList r0 d) S → l.foldl (checkLinesStep g) S = S := by
  have hguard : ¬(c < 0 ∨ c = JOKER_COLOR) := by
    intro h
    rcases h with h | h
    · omega
    · rw [h] at hc
      exact absurd hc.2 (by decide)
  intro l
  induction l with
  | nil =>
    intro S _ _
    rfl
  | cons p rest ih =>
    intro S hval hS
    simp only [List.foldl_cons]
    have hstep : checkLinesStep g S p = S := by
      by_cases hpR : p ∈ runList r0 d
      · exact step_skip_visited g p c S
          (by rw [hg p (hval p (List.mem_cons_self _ _)), if_pos hpR]) hguard
          (hS.2.2.2 p hpR)
      · exact step_skip_empty g p
          (by rw [hg p (hval p (List.mem_cons_self _ _)), if_neg hpR]) S
    rw [hstep]
    exact ih S (fun q hq => hval q (List.mem_cons_of_mem _ hq)) hS

theorem run_scan (g : Grid) (c : Int) (d : Int × Int) (r0 : Pos)
    (hd : d ∈ HEX_DIRS) (hc : 0 ≤ c ∧ c < NUM_COLORS)
    (hvalid : ∀ r ∈ runList r0 d, isValidCell r = true)
    (hg : ∀ p : Pos, isValidCell p = true →
      g p = if p ∈ runList r0 d then c else EMPTY_COLOR) :
    ∀ l : List Pos, (∀ p ∈ l, isValidCell p = true) →
      (∃ y ∈ l, y ∈ runList r0 d) →
      runState c (runList r0 d)
        (l.foldl (checkLinesStep g) ⟨[], 0, fun _ _ => false⟩) := by
  intro l
  induction l with
  | nil =>
    rintro _ ⟨y, hy, -⟩
    cases hy
  | cons p rest ih =>
    intro hval hex
    simp only [List.foldl_cons]
    by_cases hpR : p ∈ runList r0 d
    · have hfired := run_fire g c d r0 hd hc hvalid hg p hpR
      rw [run_absorb g c d r0 hc hvalid hg rest _
        (fun q hq => hval q (List.mem_cons_of_mem _ hq)) hfired]
      exact hfired
    · have hstep : checkLinesStep g ⟨[], 0, fun _ _ => false⟩ p =
          ⟨[], 0, fun _ _ => false⟩ :=
        step_skip_empty g p
          (by rw [hg p (hval p (List.mem_cons_self _ _)), if_neg hpR]) _
      rw [hstep]
      refine ih (fun q hq => hval q (List.mem_cons_of_mem _ hq)) ?_
      obtain ⟨y, hy, hyR⟩ := hex
      rcases List.mem_cons.mp hy with rfl | hy'
      · exact absurd hyR hpR
      · exact ⟨y, hy', hyR⟩

/-- C4: on a grid whose only occupied cells are a straight run of five
cells of one base color along one hex direction, `checkLines` removes
exactly those five positions, with one line, no jokers, and score 10. -/
theorem checkLines_straight_run (g : Grid) (c : Int) (d : Int × Int) (r0 : Pos)
    (hd : d ∈ HEX_DIRS) (hc : 0 ≤ c ∧ c < NUM_COLORS)
    (hvalid : ∀ r ∈ runList r0 d, isValidCell r = true)
    (hg : ∀ p : Pos, isValidCell p = true →
      g p = if p ∈ runList r0 d then c else EMPTY_COLOR) :
    (∀ x, x ∈ (checkLines g).toRemove ↔ x ∈ runList r0 d) ∧
      (checkLines g).toRemove.length = 5 ∧
      (checkLines g).lineCount = 1 ∧
      (checkLines g).jokerRemoved = 0 ∧
      (checkLines g).score = 10 := by
  have hr0 : r0 ∈ runList r0 d := by simp [runList, runCell]
  obtain ⟨hmem, hnodup, hlc, hvis⟩ := run_scan g c d r0 hd hc hvalid hg
    getAllValidPositions (fun p hp => mem_getAllValidPositions.mp hp)
    ⟨r0, mem_getAllValidPositions.mpr (hvalid r0 hr0), hr0⟩
  have hlen : (getAllValidPositions.foldl (checkLinesStep g)
      ⟨[], 0, fun _ _ => false⟩).toRemove.length = 5 := by
    rw [length_eq_of_nodup_mem_iff hnodup (runList_nodup r0 d hd) hmem]
    rfl
  have hjok : countJokers g (getAllValidPositions.foldl (checkLinesStep g)
      ⟨[], 0, fun _ _ => false⟩).toRemove 0 = 0 := by
    refine countJokers_eq_acc g _ 0 ?_
    intro q hq
    have hqR := (hmem q).mp hq
    rw [hg q (hvalid q hqR), if_pos hqR]
    intro h
    have h' : c = (7 : Int) := h
    have hnc : NUM_COLORS = (7 : Int) := rfl
    omega
  refine ⟨hmem, hlen, hlc, hjok, ?_⟩
  show (if 0 < (getAllValidPositions.foldl (checkLinesStep g)
        ⟨[], 0, fun _ _ => false⟩).toRemove.length then
      (getAllValidPositions.foldl (checkLinesStep g)
        ⟨[], 0, fun _ _ => false⟩).toRemove.length * 2 +
        ((getAllValidPositions.foldl (checkLinesStep g)
          ⟨[], 0, fun _ _ => false⟩).toRemove.length - MIN_MATCH) * 2 +
        (if 1 < (getAllValidPositions.foldl (checkLinesStep g)
            ⟨[], 0, fun _ _ => false⟩).lineCount then
          ((getAllValidPositions.foldl (checkLinesStep g)
            ⟨[], 0, fun _ _ => false⟩).lineCount - 1) * 6
        else 0) +
        countJokers g (getAllValidPositions.foldl (checkLinesStep g)
          ⟨[], 0, fun _ _ => false⟩).toRemove 0 * 2
    else 0) = 10
  rw [hlen, hlc, hjok]
  decide

/-- A grid holding exactly the straight run `(4,2) … (4,6)` of color 2. -/
def runGridW : Grid := fun p =>
  if p ∈ runList (4, 2) (1, 0) then 2 else EMPTY_COLOR

/-- Witness for C4 on a concrete straight run of five color-2 cells. -/
theorem checkLines_straight_run_witness :
    (∀ x, x ∈ (checkLines runGridW).toRemove ↔ x ∈ runList (4, 2) (1, 0)) ∧
      (checkLines runGridW).toRemove.length = 5 ∧
      (checkLines runGridW).lineCount = 1 ∧
      (checkLines runGridW).jokerRemoved = 0 ∧
      (checkLines runGridW).score = 10 :=
  checkLines_straight_run runGridW 2 (1, 0) (4, 2) (by decide) (by decide) (by decide)
    (fun _ _ => rfl)

theorem wfGrid5_run (p : Pos) (hp : isValidCell p = true) :
    wfGrid5 p = if p ∈ runList (4, 2) (1, 0) then 2 else EMPTY_COLOR := by
  have hlist : runList ((4 : Int), (2 : Int)) ((1 : Int), (0 : Int)) =
      [(4, 2), (4, 3), (4, 4), (4, 5), (4, 6)] := by decide
  rw [hlist, wfGrid5]
  by_cases hmem : p ∈ ([(4, 2), (4, 3), (4, 4), (4, 5), (4, 6)] : List Pos)
  · rw [if_pos hmem, if_pos hmem]
  · rw [if_neg hmem, if_neg hmem, if_pos hp]

theorem wfGrid5_removal_mem : ((4 : Int), (2 : Int)) ∈ (checkLines wfGrid5).toRemove := by
  have hsc := run_scan wfGrid5 2 (1, 0) (4, 2) (by decide) (by decide) (by decide)
    wfGrid5_run getAllValidPositions (fun p hp => mem_getAllValidPositions.mp hp)
    ⟨(4, 2), by decide, by decide⟩
  exact (hsc.1 (4, 2)).mpr (by decide)

/-- Witness for C10 at the concrete removed cell `(4,2)` of a
well-formed grid holding a straight run of five color-2 cells. -/
theorem checkLines_removal_occupied_witness :
    isValidCell ((4 : Int), (2 : Int)) = true ∧ 0 ≤ wfGrid5 (4, 2) ∧
      wfGrid5 (4, 2) ≠ EMPTY_COLOR ∧ wfGrid5 (4, 2) ≠ BLOCKED_COLOR :=
  checkLines_removal_occupied wfGrid5 wfGrid5_wf (4, 2) wfGrid5_removal_mem

/-! ### C6: `checkLines` leaves the grid store untouched

The mutable TypeScript heap is made explicit: every grid read goes
through `readCell`, which threads the store. `checkLinesSt` is the
store-threaded transliteration of `checkLines`; comparing the two (and
the store before and after) expresses that `checkLines` never writes
the grid and is a pure, deterministic function of it. -/

def readCell (g : Grid) (p : Pos) : Int × Grid := (g p, g)

def enqueueNeighborsSt (b : Int) :
    (Pos → Bool) → List Pos → List Pos → Grid → ((Pos → Bool) × List Pos) × Grid
  | visited, queue, [], g => ((visited, queue), g)
  | visited, queue, n :: ns, g =>
    if visited n = true then enqueueNeighborsSt b visited queue ns g
    else
      let rc := readCell g n
      if rc.1 ≠ b ∧ rc.1 ≠ JOKER_COLOR then enqueueNeighborsSt b visited queue ns rc.2
      else enqueueNeighborsSt b (fun p => if p = n then true else visited p)
        (queue ++ [n]) ns rc.2

theorem enqueueNeighborsSt_eq (b : Int) :
    ∀ (ns : List Pos) (visited : Pos → Bool) (queue : List Pos) (g : Grid),
      enqueueNeighborsSt b visited queue ns g =
        (enqueueNeighbors g b visited queue ns, g) := by
  intro ns
  induction ns with
  | nil =>
    intro visited queue g
    rfl
  | cons n ns ih =>
    intro visited queue g
    simp only [enqueueNeighborsSt, enqueueNeighbors, readCell]
    by_cases hv : visited n = true
    · rw [if_pos hv, if_pos hv, ih]
    · rw [if_neg hv, if_neg hv]
      by_cases hskip : g n ≠ b ∧ g n ≠ JOKER_COLOR
      · rw [if_pos hskip, if_pos hskip, ih]
      · rw [if_neg hskip, if_neg hskip, ih]

def collectLoopSt (b : Int) (visited : Pos → Bool) (queue : List Pos)
    (group : List Pos) (cnt : Nat) (g : Grid) : (List Pos × Nat × (Pos → Bool)) × Grid :=
  match hq : queue with
  | [] => ((group, cnt, visited), g)
  | cur :: rest =>
    let rc := readCell g cur
    let res := enqueueNeighborsSt b visited rest (neighbors cur) rc.2
    collectLoopSt b res.1.1 res.1.2 (group ++ [cur])
      (if rc.1 = b then cnt + 1 else cnt) res.2
  termination_by queue.length + unvisitedCount visited
  decreasing_by
    rw [enqueueNeighborsSt_eq]
    have hm := enqueueNeighbors_measure (readCell g cur).2 b (neighbors cur) visited rest
      (fun n hn => mem_neighbors_valid hn)
    simp only
    simp only [List.length_cons]
    omega

theorem collectLoopSt_nil (b : Int) (visited : Pos → Bool) (group : List Pos)
    (cnt : Nat) (g : Grid) :
    collectLoopSt b visited [] group cnt g = ((group, cnt, visited), g) := by
  rw [collectLoopSt.eq_def]

theorem collectLoopSt_cons (b : Int) (visited : Pos → Bool) (cur : Pos)
    (rest group : List Pos) (cnt : Nat) (g : Grid) :
    collectLoopSt b visited (cur :: rest) group cnt g =
      collectLoopSt b (enqueueNeighborsSt b visited rest (neighbors cur) g).1.1
        (enqueueNeighborsSt b visited rest (neighbors cur) g).1.2 (group ++ [cur])
        (if g cur = b then cnt + 1 else cnt)
        (enqueueNeighborsSt b visited rest (neighbors cur) g).2 := by
  rw [collectLoopSt.eq_def]
  dsimp only [readCell]

theorem collectLoopSt_eq (b : Int) :
    ∀ (N : Nat) (visited : Pos → Bool) (queue group : List Pos) (cnt : Nat) (g : Grid),
      queue.length + unvisitedCount visited ≤ N →
      collectLoopSt b visited queue group cnt g =
        (collectLoop g b visited queue group cnt, g) := by
  intro N
  induction N with
  | zero =>
    intro visited queue group cnt g hN
    have hqnil : queue = [] := List.length_eq_zero.mp (by omega)
    subst hqnil
    rw [collectLoopSt_nil, collectLoop_nil]
  | succ N ih =>
    intro visited queue group cnt g hN
    rcases queue with _ | ⟨cur, rest⟩
    · rw [collectLoopSt_nil, collectLoop_nil]
    · rw [collectLoopSt_cons, collectLoop_cons]
      rw [enqueueNeighborsSt_eq]
      have hm := enqueueNeighbors_measure g b (neighbors cur) visited rest
        (fun n hn => mem_neighbors_valid hn)
      refine ih _ _ _ _ _ ?_
      simp only [List.length_cons] at hN
      dsimp only
      omega

def collectGroupForBaseSt (start : Pos) (b : Int) (visited : Pos → Bool) (g : Grid) :
    (List Pos × Nat × (Pos → Bool)) × Grid :=
  collectLoopSt b (fun p => if p = start then true else visited p) [start] [] 0 g

theorem collectGroupForBaseSt_eq (start : Pos) (b : Int) (visited : Pos → Bool)
    (g : Grid) :
    collectGroupForBaseSt start b visited g =
      (collectGroupForBase g start b visited, g) := by
  rw [collectGroupForBaseSt, collectGroupForBase]
  exact collectLoopSt_eq b _ _ _ _ _ _ (le_refl _)

def checkLinesStepSt (st : LinesState) (pos : Pos) (g : Grid) : LinesState × Grid :=
  let rc := readCell g pos
  if rc.1 < 0 ∨ rc.1 = JOKER_COLOR then (st, rc.2)
  else if st.visitedByBase rc.1 pos = true then (st, rc.2)
  else
    let res := collectGroupForBaseSt pos rc.1 (st.visitedByBase rc.1) rc.2
    let st' : LinesState := { st with
      visitedByBase := fun c => if c = rc.1 then res.1.2.2 else st.visitedByBase c }
    if MIN_MATCH ≤ res.1.1.length ∧ 0 < res.1.2.1 then
      let ar := addGroup st.toRemove res.1.1
      ({ st' with
        toRemove := ar.1
        lineCount := st.lineCount + if ar.2 then 1 else 0 }, res.2)
    else (st', res.2)

theorem checkLinesStepSt_eq (st : LinesState) (pos : Pos) (g : Grid) :
    checkLinesStepSt st pos g = (checkLinesStep g st pos, g) := by
  unfold checkLinesStepSt checkLinesStep readCell
  dsimp only
  by_cases h1 : g pos < 0 ∨ g pos = JOKER_COLOR
  · rw [if_pos h1, if_pos h1]
  · rw [if_neg h1, if_neg h1]
    by_cases h2 : st.visitedByBase (g pos) pos = true
    · rw [if_pos h2, if_pos h2]
    · rw [if_neg h2, if_neg h2]
      rw [collectGroupForBaseSt_eq]
      by_cases h3 : MIN_MATCH ≤ (collectGroupForBase g pos (g pos)
            (st.visitedByBase (g pos))).1.length ∧
          0 < (collectGroupForBase g pos (g pos) (st.visitedByBase (g pos))).2.1
      · rw [if_pos h3, if_pos h3]
      · rw [if_neg h3, if_neg h3]

def checkLinesScanSt : List Pos → LinesState → Grid → LinesState × Grid
  | [], st, g => (st, g)
  | p :: ps, st, g =>
    let r := checkLinesStepSt st p g
    checkLinesScanSt ps r.1 r.2

theorem checkLinesScanSt_eq :
    ∀ (ps : List Pos) (st : LinesState) (g : Grid),
      checkLinesScanSt ps st g = (ps.foldl (checkLinesStep g) st, g) := by
  intro ps
  induction ps with
  | nil =>
    intro st g
    rfl
  | cons p ps ih =>
    intro st g
    simp only [checkLinesScanSt, List.foldl_cons]
    rw [checkLinesStepSt_eq]
    exact ih _ _

def countJokersSt : List Pos → Nat → Grid → Nat × Grid
  | [], acc, g => (acc, g)
  | p :: ps, acc, g =>
    let rc := readCell g p
    countJokersSt ps (if rc.1 = JOKER_COLOR then acc + 1 else acc) rc.2

theorem countJokersSt_eq :
    ∀ (ps : List Pos) (acc : Nat) (g : Grid),
      countJokersSt ps acc g = (countJokers g ps acc, g) := by
  intro ps
  induction ps with
  | nil =>
    intro acc g
    rfl
  | cons p ps ih =>
    intro acc g
    simp only [countJokersSt, countJokers, readCell]
    exact ih _ _

/-- The store-threaded transliteration of `checkLines`. -/
def checkLinesSt (g : Grid) : CheckResult × Grid :=
  let r := checkLinesScanSt getAllValidPositions ⟨[], 0, fun _ _ => false⟩ g
  let jr := countJokersSt r.1.toRemove 0 r.2
  ({ toRemove := r.1.toRemove
     score := if 0 < r.1.toRemove.length then
         r.1.toRemove.length * 2 + (r.1.toRemove.length - MIN_MATCH) * 2 +
           (if 1 < r.1.lineCount then (r.1.lineCount - 1) * 6 else 0) + jr.1 * 2
       else 0
     lineCount := r.1.lineCount
     jokerRemoved := jr.1 }, jr.2)

theorem checkLinesSt_eq (g : Grid) : checkLinesSt g = (checkLines g, g) := by
  unfold checkLinesSt checkLines
  rw [checkLinesScanSt_eq]
  dsimp only
  rw [countJokersSt_eq]

/-- C6: the store-threaded run of `checkLines` returns the grid
unchanged and the same result as the pure function, and running it
twice in succession on the resulting store yields identical results —
`checkLines` is a pure, deterministic function of its input grid. -/
theorem checkLines_pure (g : Grid) :
    (checkLinesSt g).2 = g ∧
      (checkLinesSt g).1 = checkLines g ∧
      (checkLinesSt (checkLinesSt g).2).1 = (checkLinesSt g).1 ∧
      (checkLinesSt (checkLinesSt g).2).2 = g := by
  have h1 := checkLinesSt_eq g
  refine ⟨?_, ?_, ?_, ?_⟩
  · rw [h1]
  · rw [h1]
  · rw [h1]
    rw [checkLinesSt_eq]
  · rw [h1]
    rw [checkLinesSt_eq]

end Atomicon
